import Mathlib

/-!
# Verification of the `scope` oscilloscope renderer

A shallow embedding of `src/scope/src/lib.rs` (crate `scope` of
`synthesizer-io`), an analog-oscilloscope style waveform renderer, together
with proofs about its specification.

Modelling conventions:

* `f32` values are modelled as real numbers (`ℝ`): arithmetic on the glow
  buffer, sweep positions and splat kernels is the idealized real arithmetic
  of the floating-point program.  `f32::sqrt`, `f32::exp` and
  `std::f32::consts::PI` become `Real.sqrt`, `Real.exp` and `Real.pi`.
* `usize` values are modelled as `ℕ`.  Rust `usize` subtraction is a checked
  operation (it is an arithmetic-overflow program error when the subtrahend
  is larger); it is modelled by `checkSub`, which returns `none` exactly when
  the Rust program errs.
* `Vec` indexing (`v[i]`, which is a bounds-checked panic in Rust) is
  modelled by `Option`-returning checked reads/writes in the `...Checked`
  functions.  `none` models a panic.  For the splatting primitives a total
  twin (using `List.set`, which never fails) is also defined; the theorem for
  claim C2 proves the checked and total versions agree, i.e. no splat write
  is ever out of bounds.
* The cast `(x.ceil().max(0.0) as usize)` (truncating, saturating at zero)
  is modelled by `Int.toNat ⌈x⌉`, and the saturating-truncating cast
  `f32 as u8` by `byteOfReal`.
-/

noncomputable section

open scoped Classical

/-- `CLIP_FACTOR`: the box beyond which the gaussian is clipped, as a
multiple of radius. -/
def clipFactor : ℝ := 2.5

/-- `gauss_approx`: rational approximation of `exp (-x*x)` from the source. -/
def gauss_approx (x : ℝ) : ℝ :=
  let xx := x * x
  let y := x + (0.215 + 0.0952 * xx) * (x * xx)
  (1 + y * y)⁻¹

/-- `erf_approx`: rational approximation of `erf (x * sqrt π / 2)` from the
source. -/
def erf_approx (x : ℝ) : ℝ :=
  let xx := x * x
  let x1 := x + (0.217 + 0.072 * xx) * (x * xx)
  x1 / Real.sqrt (1 + x1 * x1)

/-- The `Scope` struct of the source: a glow buffer of `width * height`
intensities (row-major) plus the sweep/fade state. -/
structure Scope where
  width : ℕ
  height : ℕ
  glow : List ℝ
  tc : ℝ
  sweep : ℝ
  horiz : ℝ
  gain : ℝ
  xylast : Option (ℝ × ℝ)

namespace Scope

/-- Well-formedness: the glow buffer has exactly `width * height` cells.
Every scope built by `new` satisfies this and every operation preserves it. -/
def Wf (s : Scope) : Prop := s.glow.length = s.width * s.height

/-- `Scope::new`. -/
def new (width height : ℕ) : Scope :=
  { width := width
    height := height
    glow := List.replicate (width * height) 0
    tc := 1000
    sweep := 0.001
    horiz := 0
    gain := 1
    xylast := none }

/-- One additive write into the glow buffer: `glow[idx] += v`
(total model; `List.set` is a no-op out of range, and the C2 theorem shows
the index is in range whenever this is reached from the splat loops). -/
def bump (g : List ℝ) (idx : ℕ) (v : ℝ) : List ℝ :=
  g.set idx (g.getD idx 0 + v)

/-- Checked form of `glow[idx] += v`: `none` models the Rust panic on an
out-of-bounds index. -/
def bumpChecked (g : List ℝ) (idx : ℕ) (v : ℝ) : Option (List ℝ) :=
  if idx < g.length then some (bump g idx v) else none

/-- `((x - CLIP_FACTOR*r).ceil().max(0.0) as usize).min(width)`:
low column bound of a dot's clip box. -/
def dotI0 (s : Scope) (x r : ℝ) : ℕ := min (⌈x - clipFactor * r⌉.toNat) s.width

/-- High column bound of a dot's clip box. -/
def dotI1 (s : Scope) (x r : ℝ) : ℕ := min (⌈x + clipFactor * r⌉.toNat) s.width

/-- Low row bound of a dot's clip box. -/
def dotJ0 (s : Scope) (y r : ℝ) : ℕ := min (⌈y - clipFactor * r⌉.toNat) s.height

/-- High row bound of a dot's clip box. -/
def dotJ1 (s : Scope) (y r : ℝ) : ℕ := min (⌈y + clipFactor * r⌉.toNat) s.height

/-- `Scope::add_dot` (total model). -/
def add_dot (s : Scope) (x y r amp : ℝ) : Scope :=
  let rr := r⁻¹
  let g :=
    (List.range' (s.dotJ0 y r) (s.dotJ1 y r - s.dotJ0 y r)).foldl (fun g (j : ℕ) =>
      let zyamp := gauss_approx (rr * ((j : ℝ) - y)) * amp
      (List.range' (s.dotI0 x r) (s.dotI1 x r - s.dotI0 x r)).foldl (fun g (i : ℕ) =>
        bump g (j * s.width + i) (gauss_approx (rr * ((i : ℝ) - x)) * zyamp)) g)
      s.glow
  { s with glow := g }

/-- `Scope::add_dot` with Rust's bounds-checked buffer writes. -/
def add_dotChecked (s : Scope) (x y r amp : ℝ) : Option Scope := do
  let rr := r⁻¹
  let g ← (List.range' (s.dotJ0 y r) (s.dotJ1 y r - s.dotJ0 y r)).foldlM (fun g (j : ℕ) =>
      let zyamp := gauss_approx (rr * ((j : ℝ) - y)) * amp
      (List.range' (s.dotI0 x r) (s.dotI1 x r - s.dotI0 x r)).foldlM (fun g (i : ℕ) =>
        bumpChecked g (j * s.width + i) (gauss_approx (rr * ((i : ℝ) - x)) * zyamp)) g)
      s.glow
  pure { s with glow := g }

/-- Low column bound of a line segment's clip box
(`((x0.min(x1) - CLIP_FACTOR*r).ceil().max(0.0) as usize).min(width)`). -/
def lineI0 (s : Scope) (x0 x1 r : ℝ) : ℕ :=
  min (⌈min x0 x1 - clipFactor * r⌉.toNat) s.width

/-- High column bound of a line segment's clip box. -/
def lineI1 (s : Scope) (x0 x1 r : ℝ) : ℕ :=
  min (⌈max x0 x1 + clipFactor * r⌉.toNat) s.width

/-- Low row bound of a line segment's clip box. -/
def lineJ0 (s : Scope) (y0 y1 r : ℝ) : ℕ :=
  min (⌈min y0 y1 - clipFactor * r⌉.toNat) s.height

/-- High row bound of a line segment's clip box. -/
def lineJ1 (s : Scope) (y0 y1 r : ℝ) : ℕ :=
  min (⌈max y0 y1 + clipFactor * r⌉.toNat) s.height

/-- The per-pixel contribution of `Scope::add_line`'s main loop:
`amp * gauss_approx(v) * (erf_approx(u) - erf_approx(u - ustep))` with
`u`, `v` the rotated-frame coordinates of pixel `(i, j)`. -/
def lineZ (ux uy u0 vx vy v0 ustep amp2 : ℝ) (i j : ℕ) : ℝ :=
  let u := ux * (i : ℝ) + uy * (j : ℝ) + u0
  let v := vx * (i : ℝ) + vy * (j : ℝ) + v0
  amp2 * gauss_approx v * (erf_approx u - erf_approx (u - ustep))

/-- `Scope::add_line` (total model).  The degenerate branch (`len2 < 1`)
falls back to `add_dot` at the midpoint, exactly as the source does. -/
def add_line (s : Scope) (x0 y0 x1 y1 r amp : ℝ) : Scope :=
  let dx := x1 - x0
  let dy := y1 - y0
  let len2 := dx * dx + dy * dy
  if len2 < 1 then s.add_dot ((x0 + x1) * 0.5) ((y0 + y1) * 0.5) r amp
  else
    let uvscale := 1 / (r * Real.sqrt len2)
    let vx := -dy * uvscale
    let vy := dx * uvscale
    let uscale := 2 / Real.sqrt Real.pi
    let ux := vy * uscale
    let uy := -vx * uscale
    let u0 := -x0 * ux - y0 * uy
    let v0 := -x0 * vx - y0 * vy
    let ustep := dx * ux + dy * uy
    let amp2 := r / uscale * amp / Real.sqrt len2
    let g :=
      (List.range' (s.lineJ0 y0 y1 r) (s.lineJ1 y0 y1 r - s.lineJ0 y0 y1 r)).foldl
        (fun g (j : ℕ) =>
          (List.range' (s.lineI0 x0 x1 r) (s.lineI1 x0 x1 r - s.lineI0 x0 x1 r)).foldl
            (fun g (i : ℕ) => bump g (j * s.width + i) (lineZ ux uy u0 vx vy v0 ustep amp2 i j))
            g)
        s.glow
    { s with glow := g }

/-- `Scope::add_line` with Rust's bounds-checked buffer writes. -/
def add_lineChecked (s : Scope) (x0 y0 x1 y1 r amp : ℝ) : Option Scope :=
  let dx := x1 - x0
  let dy := y1 - y0
  let len2 := dx * dx + dy * dy
  if len2 < 1 then s.add_dotChecked ((x0 + x1) * 0.5) ((y0 + y1) * 0.5) r amp
  else
    let uvscale := 1 / (r * Real.sqrt len2)
    let vx := -dy * uvscale
    let vy := dx * uvscale
    let uscale := 2 / Real.sqrt Real.pi
    let ux := vy * uscale
    let uy := -vx * uscale
    let u0 := -x0 * ux - y0 * uy
    let v0 := -x0 * vx - y0 * vy
    let ustep := dx * ux + dy * uy
    let amp2 := r / uscale * amp / Real.sqrt len2
    do
      let g ← (List.range' (s.lineJ0 y0 y1 r) (s.lineJ1 y0 y1 r - s.lineJ0 y0 y1 r)).foldlM
          (fun g (j : ℕ) =>
            (List.range' (s.lineI0 x0 x1 r) (s.lineI1 x0 x1 r - s.lineI0 x0 x1 r)).foldlM
              (fun g (i : ℕ) =>
                bumpChecked g (j * s.width + i) (lineZ ux uy u0 vx vy v0 ustep amp2 i j))
              g)
          s.glow
      pure { s with glow := g }

/-- `Scope::add_line_step`: the stepped (multi-dot) alternative to
`add_line`, kept because it is a public method of the struct. -/
def add_line_step (s : Scope) (x0 y0 x1 y1 r amp : ℝ) : Scope :=
  let n : ℕ := 20
  let step := ((n : ℝ))⁻¹
  let amp1 := amp / (n : ℝ)
  (List.range n).foldl (fun s i =>
    let t := ((i : ℝ) + 0.5) * step
    s.add_dot (x0 + (x1 - x0) * t) (y0 + (y1 - y0) * t) r amp1) s

/-- `Scope::fade`: multiply every glow cell by `factor`. -/
def fade (s : Scope) (factor : ℝ) : Scope :=
  { s with glow := s.glow.map (· * factor) }

/-- The body of the per-sample loop of `Scope::provide_samples`.
`y0` and `yscale` are the values the source computes once before the loop. -/
def plotStep (y0 yscale : ℝ) (st : Scope) (sample : ℝ) : Scope :=
  let x := st.horiz * (st.width : ℝ)
  let y := y0 - yscale * sample
  let st1 :=
    match st.xylast with
    | some p => st.add_line p.1 p.2 x y 1 2
    | none => st
  let st2 := { st1 with xylast := some (x, y), horiz := st1.horiz + st1.sweep }
  if st2.horiz > 1 then { st2 with horiz := st2.horiz - 1, xylast := none } else st2

/-- `Scope::provide_samples`. -/
def provide_samples (s : Scope) (samples : List ℝ) : Scope :=
  let factor := Real.exp (-(samples.length : ℝ) / s.tc)
  let s1 := s.fade factor
  let y0 := (s1.height : ℝ) * 0.5
  let yscale := y0 * s1.gain
  samples.foldl (plotStep y0 yscale) s1

/-! ## Presentation: `as_rgba` and the grid overlay

The image is a flat byte list (`List ℕ`, each entry a `u8` value).  All
buffer writes and all `usize` subtractions are checked, mirroring Rust's
panic semantics.  -/

/-- The saturating truncating cast `f32 as u8` (negative values and NaN
map to 0, values ≥ 256 would map to 255; both tone-curve ranges below stay
inside `[0, 256)`, so only the low clamp matters here). -/
def byteOfReal (x : ℝ) : ℕ := min ⌊x⌋.toNat 255

/-- Red tone curve `(64.0 * glow.min(1.0).sqrt()) as u8`. -/
def redByte (g : ℝ) : ℕ := byteOfReal (64 * Real.sqrt (min g 1))

/-- Green tone curve `(255.0 * (glow + 0.03).min(1.0).sqrt()) as u8`. -/
def greenByte (g : ℝ) : ℕ := byteOfReal (255 * Real.sqrt (min (g + 0.03) 1))

/-- Blue tone curve `(224.0 * (glow + 0.1).min(1.0).sqrt()) as u8`. -/
def blueByte (g : ℝ) : ℕ := byteOfReal (224 * Real.sqrt (min (g + 0.1) 1))

/-- Checked write `im[i] = v`. -/
def setChecked (im : List ℕ) (i v : ℕ) : Option (List ℕ) :=
  if i < im.length then some (im.set i v) else none

/-- Checked read `glow[i]`. -/
def glowChecked (s : Scope) (i : ℕ) : Option ℝ :=
  if i < s.glow.length then some (s.glow.getD i 0) else none

/-- The tone-mapping loop of `as_rgba`: start from `vec![255; n*4]` and set
the R, G, B bytes of every pixel. -/
def tonemapChecked (s : Scope) : Option (List ℕ) :=
  (List.range (s.width * s.height)).foldlM
    (fun im (i : ℕ) => do
      let g ← s.glowChecked i
      let im ← setChecked im (i * 4) (redByte g)
      let im ← setChecked im (i * 4 + 1) (greenByte g)
      setChecked im (i * 4 + 2) (blueByte g))
    (List.replicate (s.width * s.height * 4) 255)

/-- Checked `usize` subtraction: Rust integer-overflow error becomes
`none`. -/
def checkSub (a b : ℕ) : Option ℕ :=
  if b ≤ a then some (a - b) else none

/-- Halve (shift right by one) the R, G, B bytes of pixel `i`:
the body of `render_hline`/`render_vline`, with the bounds check of the
`im[...]` indexing. -/
def shift3Checked (im : List ℕ) (i : ℕ) : Option (List ℕ) :=
  if i * 4 + 2 < im.length then
    some
      (let im1 := im.set (i * 4) (im.getD (i * 4) 0 / 2)
       let im2 := im1.set (i * 4 + 1) (im1.getD (i * 4 + 1) 0 / 2)
       im2.set (i * 4 + 2) (im2.getD (i * 4 + 2) 0 / 2))
  else none

/-- `Scope::render_hline`: darken pixels `y*width+x0 .. y*width+x1`. -/
def render_hlineChecked (s : Scope) (x0 x1 y : ℕ) (im : List ℕ) : Option (List ℕ) :=
  (List.range' (y * s.width + x0) ((y * s.width + x1) - (y * s.width + x0))).foldlM
    (fun im (i : ℕ) => shift3Checked im i) im

/-- `Scope::render_vline`: darken pixels `(x, y0) .. (x, y1)`. -/
def render_vlineChecked (s : Scope) (x y0 y1 : ℕ) (im : List ℕ) : Option (List ℕ) :=
  (List.range' y0 (y1 - y0)).foldlM
    (fun im (j : ℕ) => shift3Checked im (j * s.width + x)) im

/-- Grid line spacing. -/
def gridSp : ℕ := 60

/-- Tick mark spacing. -/
def tickSp : ℕ := 12

/-- Tick mark half-length. -/
def tickLen : ℕ := 6

/-- `Scope::render_grid_lines`: the center axes, the coarse grid lines, and
the tick marks along the center axes.  Each `usize` subtraction and each
pixel write is checked. -/
def render_grid_linesChecked (s : Scope) (im : List ℕ) : Option (List ℕ) := do
  let x2 := s.width / 2
  let y2 := s.height / 2
  let im ← s.render_hlineChecked 0 s.width y2 im
  let im ← s.render_vlineChecked x2 0 s.height im
  let im ← (List.range' 1 ((y2 + gridSp - 1) / gridSp - 1)).foldlM
    (fun im (i : ℕ) => do
      let im ← s.render_hlineChecked 0 s.width (y2 + i * gridSp) im
      let yl ← checkSub y2 (i * gridSp)
      s.render_hlineChecked 0 s.width yl im) im
  let im ← (List.range' 1 ((x2 + gridSp - 1) / gridSp - 1)).foldlM
    (fun im (i : ℕ) => do
      let im ← s.render_vlineChecked (x2 + i * gridSp) 0 s.height im
      let xl ← checkSub x2 (i * gridSp)
      s.render_vlineChecked xl 0 s.height im) im
  let im ← (List.range' 1 ((y2 + tickSp - 1) / tickSp - 1)).foldlM
    (fun im (i : ℕ) => do
      let xl ← checkSub x2 tickLen
      let yl ← checkSub y2 (i * tickSp)
      let im ← s.render_hlineChecked xl (x2 + tickLen) yl im
      s.render_hlineChecked xl (x2 + tickLen) (y2 + i * tickSp) im) im
  (List.range' 1 ((x2 + tickSp - 1) / tickSp - 1)).foldlM
    (fun im (i : ℕ) => do
      let yl ← checkSub y2 tickLen
      let im ← s.render_vlineChecked (x2 + i * tickSp) yl (y2 + tickLen) im
      let xl ← checkSub x2 (i * tickSp)
      s.render_vlineChecked xl yl (y2 + tickLen) im) im

/-- `Scope::as_rgba`: tone-map the glow buffer, then overlay the grid. -/
def as_rgbaChecked (s : Scope) : Option (List ℕ) := do
  let im ← s.tonemapChecked
  s.render_grid_linesChecked im

/-! ## The pixels covered by the grid overlay -/

/-- Pixel `p` (flat row-major index) lies on the horizontal line drawn by
`render_hline x0 x1 y`. -/
def onHline (w x0 x1 y p : ℕ) : Prop := y * w + x0 ≤ p ∧ p < y * w + x1

/-- Pixel `p` lies on the vertical line drawn by `render_vline x y0 y1`. -/
def onVline (w x y0 y1 p : ℕ) : Prop := ∃ j, y0 ≤ j ∧ j < y1 ∧ p = j * w + x

/-- Pixel `p` is covered by some grid line or tick mark of the overlay for a
`w × h` scope (phrased with the same index arithmetic as the overlay code;
`Nat` subtraction here matches the checked `usize` subtraction in every run
in which the overlay completes). -/
def gridCovered (w h p : ℕ) : Prop :=
  let x2 := w / 2
  let y2 := h / 2
  onHline w 0 w y2 p ∨ onVline w x2 0 h p ∨
    (∃ i, 1 ≤ i ∧ i < (y2 + gridSp - 1) / gridSp ∧
      (onHline w 0 w (y2 + i * gridSp) p ∨ onHline w 0 w (y2 - i * gridSp) p)) ∨
    (∃ i, 1 ≤ i ∧ i < (x2 + gridSp - 1) / gridSp ∧
      (onVline w (x2 + i * gridSp) 0 h p ∨ onVline w (x2 - i * gridSp) 0 h p)) ∨
    (∃ i, 1 ≤ i ∧ i < (y2 + tickSp - 1) / tickSp ∧
      (onHline w (x2 - tickLen) (x2 + tickLen) (y2 - i * tickSp) p ∨
        onHline w (x2 - tickLen) (x2 + tickLen) (y2 + i * tickSp) p)) ∨
    (∃ i, 1 ≤ i ∧ i < (x2 + tickSp - 1) / tickSp ∧
      (onVline w (x2 + i * tickSp) (y2 - tickLen) (y2 + tickLen) p ∨
        onVline w (x2 - i * tickSp) (y2 - tickLen) (y2 + tickLen) p))

end Scope

/-! ## Reachable states -/

/-- States reachable from `Scope::new` by the operations named in claim C4,
with that claim's preconditions: fade factors `≥ 0`, radii `> 0`,
amplitudes `≥ 0`. -/
inductive Reach : Scope → Prop
  | new (w h : ℕ) : Reach (Scope.new w h)
  | fade {s : Scope} (f : ℝ) : Reach s → 0 ≤ f → Reach (s.fade f)
  | add_dot {s : Scope} (x y r amp : ℝ) : Reach s → 0 < r → 0 ≤ amp →
      Reach (s.add_dot x y r amp)
  | add_line {s : Scope} (x0 y0 x1 y1 r amp : ℝ) : Reach s → 0 < r → 0 ≤ amp →
      Reach (s.add_line x0 y0 x1 y1 r amp)
  | provide_samples {s : Scope} (samples : List ℝ) : Reach s →
      Reach (s.provide_samples samples)

/-- States reachable from `Scope::new` by any sequence of the public
operations with arbitrary arguments (for claim C7). -/
inductive ReachAny : Scope → Prop
  | new (w h : ℕ) : ReachAny (Scope.new w h)
  | fade {s : Scope} (f : ℝ) : ReachAny s → ReachAny (s.fade f)
  | add_dot {s : Scope} (x y r amp : ℝ) : ReachAny s → ReachAny (s.add_dot x y r amp)
  | add_line {s : Scope} (x0 y0 x1 y1 r amp : ℝ) : ReachAny s →
      ReachAny (s.add_line x0 y0 x1 y1 r amp)
  | add_line_step {s : Scope} (x0 y0 x1 y1 r amp : ℝ) : ReachAny s →
      ReachAny (s.add_line_step x0 y0 x1 y1 r amp)
  | provide_samples {s : Scope} (samples : List ℝ) : ReachAny s →
      ReachAny (s.provide_samples samples)

/-! ## Generic list and fold helpers -/

theorem getD_set_self {α : Type _} (l : List α) (i : ℕ) (a d : α) (h : i < l.length) :
    (l.set i a).getD i d = a := by
  simp [List.getD_eq_getElem?_getD, List.getElem?_set, h]

theorem getD_set_ne {α : Type _} (l : List α) {i j : ℕ} (a : α) (d : α) (h : i ≠ j) :
    (l.set i a).getD j d = l.getD j d := by
  simp [List.getD_eq_getElem?_getD, List.getElem?_set, h]

theorem getD_mem_or {α : Type _} (l : List α) (i : ℕ) (d : α) :
    l.getD i d ∈ l ∨ l.getD i d = d := by
  rcases lt_or_le i l.length with h | h
  · left
    rw [List.getD_eq_getElem?_getD, List.getElem?_eq_getElem h]
    exact List.getElem_mem h
  · right
    rw [List.getD_eq_getElem?_getD, List.getElem?_eq_none h]
    rfl

/-- Fold invariance: a property preserved by every step holds of the fold. -/
theorem foldl_inv {α β : Type _} (P : β → Prop) (F : β → α → β) :
    ∀ (l : List α) (b : β), (∀ b' a, P b' → a ∈ l → P (F b' a)) → P b →
      P (l.foldl F b) := by
  intro l
  induction l with
  | nil => intro b _ hb; exact hb
  | cons a t ih =>
    intro b hstep hb
    exact ih (F b a) (fun b' x hb' hx => hstep b' x hb' (List.mem_cons_of_mem a hx))
      (hstep b a hb (List.mem_cons_self a t))

/-- An `Option`-valued fold whose steps always succeed (preserving an
invariant) equals `some` of the corresponding pure fold. -/
theorem foldlM_eq_foldl {α β : Type _} (P : β → Prop) (fC : β → α → Option β)
    (f : β → α → β) :
    ∀ (l : List α) (b : β),
      (∀ b' a, P b' → a ∈ l → fC b' a = some (f b' a) ∧ P (f b' a)) → P b →
      l.foldlM fC b = some (l.foldl f b) ∧ P (l.foldl f b) := by
  intro l
  induction l with
  | nil => intro b _ hb; exact ⟨rfl, hb⟩
  | cons a t ih =>
    intro b hstep hb
    obtain ⟨h1, h2⟩ := hstep b a hb (List.mem_cons_self a t)
    rw [List.foldlM_cons, List.foldl_cons, h1]
    exact ih (f b a) (fun b' x hb' hx => hstep b' x hb' (List.mem_cons_of_mem a hx)) h2

/-- An `Option`-valued fold whose steps succeed on every input satisfying an
invariant returns `some` value satisfying the invariant. -/
theorem foldlM_some {α β : Type _} (P : β → Prop) (fC : β → α → Option β) :
    ∀ (l : List α) (b : β),
      (∀ b' a, P b' → a ∈ l → ∃ b'', fC b' a = some b'' ∧ P b'') → P b →
      ∃ b', l.foldlM fC b = some b' ∧ P b' := by
  intro l
  induction l with
  | nil => intro b _ hb; exact ⟨b, rfl, hb⟩
  | cons a t ih =>
    intro b hstep hb
    obtain ⟨b1, h1, hP1⟩ := hstep b a hb (List.mem_cons_self a t)
    obtain ⟨b', h', hP'⟩ :=
      ih b1 (fun b2 x hb2 hx => hstep b2 x hb2 (List.mem_cons_of_mem a hx)) hP1
    refine ⟨b', ?_, hP'⟩
    rw [List.foldlM_cons, h1]
    exact h'

namespace Scope

theorem length_bump (g : List ℝ) (idx : ℕ) (v : ℝ) : (bump g idx v).length = g.length :=
  List.length_set g idx _

theorem sum_bump_of_lt (g : List ℝ) (idx : ℕ) (v : ℝ) (h : idx < g.length) :
    (bump g idx v).sum = g.sum + v := by
  induction g generalizing idx with
  | nil => simp at h
  | cons a t ih =>
    cases idx with
    | zero => simp [bump]; ring
    | succ n =>
      have hn : n < t.length := by simpa using h
      have := ih n hn
      simp only [bump, List.getD_cons_succ, List.set_cons_succ, List.sum_cons] at *
      rw [this]
      ring

theorem sum_bump_le (g : List ℝ) (idx : ℕ) (v : ℝ) (hv : 0 ≤ v) :
    g.sum ≤ (bump g idx v).sum := by
  rcases lt_or_le idx g.length with h | h
  · rw [sum_bump_of_lt g idx v h]; linarith
  · rw [bump, List.set_eq_of_length_le h]

theorem mem_bump_nonneg (g : List ℝ) (idx : ℕ) (v : ℝ) (hg : ∀ c ∈ g, 0 ≤ c)
    (hv : 0 ≤ v) : ∀ c ∈ bump g idx v, 0 ≤ c := by
  intro c hc
  rcases List.mem_or_eq_of_mem_set hc with h | h
  · exact hg c h
  · subst h
    have : 0 ≤ g.getD idx 0 := by
      rcases getD_mem_or g idx 0 with h | h
      · exact hg _ h
      · rw [h]
    linarith

end Scope

/-! ## Facts about the analytic approximators -/

theorem gauss_approx_pos (x : ℝ) : 0 < gauss_approx x := by
  have h : (0 : ℝ) <
      1 + (x + (0.215 + 0.0952 * (x * x)) * (x * (x * x))) *
        (x + (0.215 + 0.0952 * (x * x)) * (x * (x * x))) := by
    nlinarith [mul_self_nonneg (x + (0.215 + 0.0952 * (x * x)) * (x * (x * x)))]
  simpa [gauss_approx] using inv_pos.mpr h

/-- The odd quintic correction polynomial of `erf_approx` is strictly
monotone. -/
theorem erf_poly_strictMono :
    StrictMono (fun x : ℝ => x + (0.217 + 0.072 * (x * x)) * (x * (x * x))) := by
  intro a b hab
  have hkey : 0 ≤ (a * a + b * b) * ((a + b) * (a + b)) :=
    mul_nonneg (by nlinarith [mul_self_nonneg a, mul_self_nonneg b])
      (mul_self_nonneg (a + b))
  have hQ : (0 : ℝ) < 1 + 0.217 * (a * a + a * b + b * b) +
      0.072 * (a * a * (a * a) + a * a * (a * b) + a * a * (b * b) +
        a * b * (b * b) + b * b * (b * b)) := by
    nlinarith [sq_nonneg (a + b), sq_nonneg (a - b), sq_nonneg (a * a - b * b),
      sq_nonneg (a * a + b * b), sq_nonneg (a * b)]
  nlinarith [mul_pos (sub_pos.mpr hab) hQ]

/-- `t ↦ t / sqrt (1 + t²)` is strictly monotone (nonnegative case). -/
theorem ratio_lt_of_nonneg {a b : ℝ} (ha : 0 ≤ a) (hab : a < b) :
    a / Real.sqrt (1 + a * a) < b / Real.sqrt (1 + b * b) := by
  have hsa : 0 < Real.sqrt (1 + a * a) :=
    Real.sqrt_pos.mpr (by nlinarith [mul_self_nonneg a])
  have hsb : 0 < Real.sqrt (1 + b * b) :=
    Real.sqrt_pos.mpr (by nlinarith [mul_self_nonneg b])
  have ha2 : Real.sqrt (1 + a * a) * Real.sqrt (1 + a * a) = 1 + a * a :=
    Real.mul_self_sqrt (by nlinarith [mul_self_nonneg a])
  have hb2 : Real.sqrt (1 + b * b) * Real.sqrt (1 + b * b) = 1 + b * b :=
    Real.mul_self_sqrt (by nlinarith [mul_self_nonneg b])
  rw [div_lt_div_iff₀ hsa hsb]
  have hb : 0 < b := lt_of_le_of_lt ha hab
  have hsum : 0 < b * Real.sqrt (1 + a * a) + a * Real.sqrt (1 + b * b) :=
    add_pos_of_pos_of_nonneg (mul_pos hb hsa) (mul_nonneg ha hsb.le)
  have hprod : (b * Real.sqrt (1 + a * a) - a * Real.sqrt (1 + b * b)) *
      (b * Real.sqrt (1 + a * a) + a * Real.sqrt (1 + b * b)) = b * b - a * a := by
    nlinarith [ha2, hb2]
  have hsq : 0 < b * b - a * a := by nlinarith
  have hdiff : 0 < b * Real.sqrt (1 + a * a) - a * Real.sqrt (1 + b * b) := by
    by_contra hcon
    push_neg at hcon
    nlinarith [mul_nonpos_of_nonpos_of_nonneg hcon hsum.le]
  linarith

/-- `t ↦ t / sqrt (1 + t²)` is strictly monotone. -/
theorem ratio_strictMono : StrictMono (fun t : ℝ => t / Real.sqrt (1 + t * t)) := by
  have hneg : ∀ t : ℝ, -t / Real.sqrt (1 + -t * -t) = -(t / Real.sqrt (1 + t * t)) := by
    intro t
    rw [show (1 + -t * -t : ℝ) = 1 + t * t by ring]
    ring
  intro a b hab
  rcases le_or_lt 0 a with ha | ha
  · exact ratio_lt_of_nonneg ha hab
  · rcases le_or_lt 0 b with hb | hb
    · have h1 : a / Real.sqrt (1 + a * a) < 0 :=
        div_neg_of_neg_of_pos ha (Real.sqrt_pos.mpr (by nlinarith [mul_self_nonneg a]))
      have h2 : 0 ≤ b / Real.sqrt (1 + b * b) :=
        div_nonneg hb (Real.sqrt_nonneg _)
      exact lt_of_lt_of_le h1 h2
    · have := ratio_lt_of_nonneg (by linarith : (0:ℝ) ≤ -b) (by linarith : -b < -a)
      rw [hneg a, hneg b] at this
      simpa using neg_lt_neg_iff.mp (by linarith)

/-- `erf_approx` is strictly monotone. -/
theorem erf_approx_strictMono : StrictMono erf_approx := by
  have heq : erf_approx = (fun t : ℝ => t / Real.sqrt (1 + t * t)) ∘
      (fun x : ℝ => x + (0.217 + 0.072 * (x * x)) * (x * (x * x))) := by
    funext x
    simp [erf_approx]
  rw [heq]
  exact ratio_strictMono.comp erf_poly_strictMono

/-- `erf_approx` is monotone non-decreasing. -/
theorem erf_approx_mono : Monotone erf_approx :=
  erf_approx_strictMono.monotone

/-! ## Field projections of the operations

The splatting and fading operations only modify `glow`; `plotStep` only
modifies `glow`, `horiz` and `xylast`. -/

namespace Scope

@[simp] theorem add_dot_width (s : Scope) (x y r amp : ℝ) :
    (s.add_dot x y r amp).width = s.width := rfl

@[simp] theorem add_dot_height (s : Scope) (x y r amp : ℝ) :
    (s.add_dot x y r amp).height = s.height := rfl

@[simp] theorem add_dot_tc (s : Scope) (x y r amp : ℝ) :
    (s.add_dot x y r amp).tc = s.tc := rfl

@[simp] theorem add_dot_sweep (s : Scope) (x y r amp : ℝ) :
    (s.add_dot x y r amp).sweep = s.sweep := rfl

@[simp] theorem add_dot_horiz (s : Scope) (x y r amp : ℝ) :
    (s.add_dot x y r amp).horiz = s.horiz := rfl

@[simp] theorem add_dot_gain (s : Scope) (x y r amp : ℝ) :
    (s.add_dot x y r amp).gain = s.gain := rfl

@[simp] theorem add_dot_xylast (s : Scope) (x y r amp : ℝ) :
    (s.add_dot x y r amp).xylast = s.xylast := rfl

@[simp] theorem add_line_width (s : Scope) (x0 y0 x1 y1 r amp : ℝ) :
    (s.add_line x0 y0 x1 y1 r amp).width = s.width := by
  rw [add_line]
  split <;> rfl

@[simp] theorem add_line_height (s : Scope) (x0 y0 x1 y1 r amp : ℝ) :
    (s.add_line x0 y0 x1 y1 r amp).height = s.height := by
  rw [add_line]
  split <;> rfl

@[simp] theorem add_line_tc (s : Scope) (x0 y0 x1 y1 r amp : ℝ) :
    (s.add_line x0 y0 x1 y1 r amp).tc = s.tc := by
  rw [add_line]
  split <;> rfl

@[simp] theorem add_line_sweep (s : Scope) (x0 y0 x1 y1 r amp : ℝ) :
    (s.add_line x0 y0 x1 y1 r amp).sweep = s.sweep := by
  rw [add_line]
  split <;> rfl

@[simp] theorem add_line_horiz (s : Scope) (x0 y0 x1 y1 r amp : ℝ) :
    (s.add_line x0 y0 x1 y1 r amp).horiz = s.horiz := by
  rw [add_line]
  split <;> rfl

@[simp] theorem add_line_gain (s : Scope) (x0 y0 x1 y1 r amp : ℝ) :
    (s.add_line x0 y0 x1 y1 r amp).gain = s.gain := by
  rw [add_line]
  split <;> rfl

@[simp] theorem add_line_xylast (s : Scope) (x0 y0 x1 y1 r amp : ℝ) :
    (s.add_line x0 y0 x1 y1 r amp).xylast = s.xylast := by
  rw [add_line]
  split <;> rfl

@[simp] theorem fade_width (s : Scope) (f : ℝ) : (s.fade f).width = s.width := rfl

@[simp] theorem fade_height (s : Scope) (f : ℝ) : (s.fade f).height = s.height := rfl

@[simp] theorem fade_tc (s : Scope) (f : ℝ) : (s.fade f).tc = s.tc := rfl

@[simp] theorem fade_sweep (s : Scope) (f : ℝ) : (s.fade f).sweep = s.sweep := rfl

@[simp] theorem fade_horiz (s : Scope) (f : ℝ) : (s.fade f).horiz = s.horiz := rfl

@[simp] theorem fade_gain (s : Scope) (f : ℝ) : (s.fade f).gain = s.gain := rfl

@[simp] theorem fade_xylast (s : Scope) (f : ℝ) : (s.fade f).xylast = s.xylast := rfl

@[simp] theorem fade_glow (s : Scope) (f : ℝ) : (s.fade f).glow = s.glow.map (· * f) := rfl

/-- The state after one `plotStep`, described by cases on the wrap test. -/
theorem plotStep_eq (y0 yscale : ℝ) (st : Scope) (sample : ℝ) :
    plotStep y0 yscale st sample =
      (let x := st.horiz * (st.width : ℝ)
       let y := y0 - yscale * sample
       let st1 :=
         match st.xylast with
         | some p => st.add_line p.1 p.2 x y 1 2
         | none => st
       if st.horiz + st.sweep > 1 then
         { st1 with xylast := none, horiz := st.horiz + st.sweep - 1 }
       else { st1 with xylast := some (x, y), horiz := st.horiz + st.sweep }) := by
  rw [plotStep]
  rcases hxy : st.xylast with _ | p <;>
    simp only [hxy, add_line_horiz, add_line_sweep]

@[simp] theorem plotStep_width (y0 yscale : ℝ) (st : Scope) (sample : ℝ) :
    (plotStep y0 yscale st sample).width = st.width := by
  rw [plotStep_eq]
  rcases hxy : st.xylast with _ | p <;> simp only [hxy] <;> split <;> simp

@[simp] theorem plotStep_height (y0 yscale : ℝ) (st : Scope) (sample : ℝ) :
    (plotStep y0 yscale st sample).height = st.height := by
  rw [plotStep_eq]
  rcases hxy : st.xylast with _ | p <;> simp only [hxy] <;> split <;> simp

@[simp] theorem plotStep_tc (y0 yscale : ℝ) (st : Scope) (sample : ℝ) :
    (plotStep y0 yscale st sample).tc = st.tc := by
  rw [plotStep_eq]
  rcases hxy : st.xylast with _ | p <;> simp only [hxy] <;> split <;> simp

@[simp] theorem plotStep_sweep (y0 yscale : ℝ) (st : Scope) (sample : ℝ) :
    (plotStep y0 yscale st sample).sweep = st.sweep := by
  rw [plotStep_eq]
  rcases hxy : st.xylast with _ | p <;> simp only [hxy] <;> split <;> simp

@[simp] theorem plotStep_gain (y0 yscale : ℝ) (st : Scope) (sample : ℝ) :
    (plotStep y0 yscale st sample).gain = st.gain := by
  rw [plotStep_eq]
  rcases hxy : st.xylast with _ | p <;> simp only [hxy] <;> split <;> simp

/-- The sweep position after one `plotStep`: advance, wrapping past 1. -/
theorem plotStep_horiz (y0 yscale : ℝ) (st : Scope) (sample : ℝ) :
    (plotStep y0 yscale st sample).horiz =
      if st.horiz + st.sweep > 1 then st.horiz + st.sweep - 1
      else st.horiz + st.sweep := by
  rw [plotStep_eq]
  rcases hxy : st.xylast with _ | p <;> simp only [hxy] <;> split <;> simp_all

end Scope

/-! ## Bounds of the splat loops (claim C2) -/

theorem splat_idx_lt (w h i j : ℕ) (hi : i < w) (hj : j < h) : j * w + i < w * h :=
  calc j * w + i < j * w + w := by omega
    _ = (j + 1) * w := by ring
    _ ≤ h * w := Nat.mul_le_mul_right w hj
    _ = w * h := Nat.mul_comm h w

namespace Scope

theorem add_dot_glow_length (s : Scope) (x y r amp : ℝ) :
    (s.add_dot x y r amp).glow.length = s.glow.length := by
  rw [add_dot]
  exact foldl_inv (fun g : List ℝ => g.length = s.glow.length) _ _ s.glow
    (fun g j hg _ =>
      foldl_inv (fun g' : List ℝ => g'.length = s.glow.length) _ _ g
        (fun g' i hg' _ => by
          show (bump _ _ _).length = s.glow.length
          rw [length_bump]; exact hg') hg)
    rfl

theorem add_line_glow_length (s : Scope) (x0 y0 x1 y1 r amp : ℝ) :
    (s.add_line x0 y0 x1 y1 r amp).glow.length = s.glow.length := by
  rw [add_line]
  split
  · exact add_dot_glow_length ..
  · exact foldl_inv (fun g : List ℝ => g.length = s.glow.length) _ _ s.glow
      (fun g j hg _ =>
        foldl_inv (fun g' : List ℝ => g'.length = s.glow.length) _ _ g
          (fun g' i hg' _ => by
            show (bump _ _ _).length = s.glow.length
            rw [length_bump]; exact hg') hg)
      rfl

theorem wf_add_dot {s : Scope} (hs : s.Wf) (x y r amp : ℝ) :
    (s.add_dot x y r amp).Wf := by
  rw [Wf, add_dot_glow_length, add_dot_width, add_dot_height]
  exact hs

theorem wf_add_line {s : Scope} (hs : s.Wf) (x0 y0 x1 y1 r amp : ℝ) :
    (s.add_line x0 y0 x1 y1 r amp).Wf := by
  rw [Wf, add_line_glow_length, add_line_width, add_line_height]
  exact hs

theorem wf_fade {s : Scope} (hs : s.Wf) (f : ℝ) : (s.fade f).Wf := by
  rw [Wf, fade_glow, fade_width, fade_height, List.length_map]
  exact hs

theorem wf_new (w h : ℕ) : (new w h).Wf := by
  rw [Wf]
  exact List.length_replicate ..

/-- Checked and total nested bump folds agree when every row index is below
`h` and every column index below `w`. -/
theorem nested_bumpChecked_eq (w h : ℕ) (rows cols : List ℕ) (val : ℕ → ℕ → ℝ)
    (hrows : ∀ j ∈ rows, j < h) (hcols : ∀ i ∈ cols, i < w) (g : List ℝ)
    (hg : g.length = w * h) :
    rows.foldlM (fun g (j : ℕ) =>
        cols.foldlM (fun g (i : ℕ) => bumpChecked g (j * w + i) (val j i)) g) g =
      some (rows.foldl (fun g (j : ℕ) =>
        cols.foldl (fun g (i : ℕ) => bump g (j * w + i) (val j i)) g) g) :=
  (foldlM_eq_foldl (fun g : List ℝ => g.length = w * h) _ _ rows g
    (fun g1 j hg1 hj =>
      foldlM_eq_foldl (fun g2 : List ℝ => g2.length = w * h) _ _ cols g1
        (fun g2 i hg2 hi => by
          have hidx : j * w + i < g2.length := by
            rw [hg2]
            exact splat_idx_lt _ _ _ _ (hcols i hi) (hrows j hj)
          constructor
          · rw [bumpChecked, if_pos hidx]
          · show (bump g2 (j * w + i) (val j i)).length = w * h
            rw [length_bump]
            exact hg2)
        hg1)
    hg).1

/-- The checked `add_dot` never fails: it agrees with the total model on
every well-formed scope.  (Every buffer write is in bounds.) -/
theorem add_dotChecked_eq {s : Scope} (hs : s.Wf) (x y r amp : ℝ) :
    s.add_dotChecked x y r amp = some (s.add_dot x y r amp) := by
  rw [add_dotChecked, add_dot]
  rw [nested_bumpChecked_eq s.width s.height _ _ _
    (fun j hj => by
      have h1 := List.mem_range'_1.mp hj
      have h2 : s.dotJ1 y r ≤ s.height := min_le_right _ _
      omega)
    (fun i hi => by
      have h1 := List.mem_range'_1.mp hi
      have h2 : s.dotI1 x r ≤ s.width := min_le_right _ _
      omega)
    s.glow hs]
  rfl

/-- The checked `add_line` never fails: it agrees with the total model on
every well-formed scope. -/
theorem add_lineChecked_eq {s : Scope} (hs : s.Wf) (x0 y0 x1 y1 r amp : ℝ) :
    s.add_lineChecked x0 y0 x1 y1 r amp = some (s.add_line x0 y0 x1 y1 r amp) := by
  simp only [add_lineChecked, add_line]
  split
  · exact add_dotChecked_eq hs ..
  · rw [nested_bumpChecked_eq s.width s.height _ _ _
      (fun j hj => by
        have h1 := List.mem_range'_1.mp hj
        have h2 : s.lineJ1 y0 y1 r ≤ s.height := min_le_right _ _
        omega)
      (fun i hi => by
        have h1 := List.mem_range'_1.mp hi
        have h2 : s.lineI1 x0 x1 r ≤ s.width := min_le_right _ _
        omega)
      s.glow hs]
    rfl

/-! ## Buffer energy (claim C3) -/

/-- Total buffer energy: the sum of all glow cells. -/
def glowSum (s : Scope) : ℝ := s.glow.sum

theorem sum_foldl_bump_le {α : Type _} (idx : α → ℕ) (val : α → ℝ) :
    ∀ (l : List α) (g : List ℝ), (∀ a ∈ l, 0 ≤ val a) →
      g.sum ≤ (l.foldl (fun g a => bump g (idx a) (val a)) g).sum := by
  intro l
  induction l with
  | nil => intro g _; simp
  | cons a t ih =>
    intro g hval
    rw [List.foldl_cons]
    calc g.sum ≤ (bump g (idx a) (val a)).sum :=
          sum_bump_le _ _ _ (hval a (List.mem_cons_self a t))
      _ ≤ _ := ih _ (fun x hx => hval x (List.mem_cons_of_mem a hx))

theorem sum_foldl_bump_lt {α : Type _} (idx : α → ℕ) (val : α → ℝ) :
    ∀ (l : List α) (g : List ℝ), (∀ a ∈ l, 0 ≤ val a) →
      (∃ a ∈ l, idx a < g.length ∧ 0 < val a) →
      g.sum < (l.foldl (fun g a => bump g (idx a) (val a)) g).sum := by
  intro l
  induction l with
  | nil => intro g _ hex; simp at hex
  | cons a t ih =>
    intro g hval hex
    rw [List.foldl_cons]
    rcases Classical.em (idx a < g.length ∧ 0 < val a) with ha | ha
    · calc g.sum < (bump g (idx a) (val a)).sum := by
            rw [sum_bump_of_lt _ _ _ ha.1]; linarith [ha.2]
        _ ≤ _ := sum_foldl_bump_le idx val t _
            (fun x hx => hval x (List.mem_cons_of_mem a hx))
    · obtain ⟨w, hw, hwlen, hwval⟩ := hex
      have hwt : w ∈ t := by
        rcases List.mem_cons.mp hw with h | h
        · exfalso; exact ha (h ▸ ⟨hwlen, hwval⟩)
        · exact h
      calc g.sum ≤ (bump g (idx a) (val a)).sum :=
            sum_bump_le _ _ _ (hval a (List.mem_cons_self a t))
        _ < _ := ih _ (fun x hx => hval x (List.mem_cons_of_mem a hx))
            ⟨w, hwt, by rw [length_bump]; exact hwlen, hwval⟩

/-- `add_dot` never decreases total energy (for nonnegative amplitude). -/
theorem add_dot_sum_le (s : Scope) (x y r amp : ℝ) (hamp : 0 ≤ amp) :
    glowSum s ≤ glowSum (s.add_dot x y r amp) := by
  rw [glowSum, glowSum, add_dot]
  exact foldl_inv (fun g : List ℝ => s.glow.sum ≤ g.sum) _ _ s.glow
    (fun g j hg _ =>
      le_trans hg
        (sum_foldl_bump_le (fun i => j * s.width + i)
          (fun i => gauss_approx (r⁻¹ * ((i : ℝ) - x)) *
            (gauss_approx (r⁻¹ * ((j : ℝ) - y)) * amp))
          (List.range' (s.dotI0 x r) (s.dotI1 x r - s.dotI0 x r)) g
          (fun i _ =>
            mul_nonneg (gauss_approx_pos _).le
              (mul_nonneg (gauss_approx_pos _).le hamp))))
    le_rfl

/-- `add_dot` strictly increases total energy when the clamped clip box is
nonempty and the amplitude is positive. -/
theorem add_dot_sum_lt (s : Scope) (x y r amp : ℝ) (hwf : s.Wf) (hamp : 0 < amp)
    (hi : s.dotI0 x r < s.dotI1 x r) (hj : s.dotJ0 y r < s.dotJ1 y r) :
    glowSum s < glowSum (s.add_dot x y r amp) := by
  rw [glowSum, glowSum, add_dot]
  show s.glow.sum <
    ((List.range' (s.dotJ0 y r) (s.dotJ1 y r - s.dotJ0 y r)).foldl _ s.glow).sum
  obtain ⟨k, hk⟩ : ∃ k, s.dotJ1 y r - s.dotJ0 y r = k + 1 :=
    ⟨s.dotJ1 y r - s.dotJ0 y r - 1, by omega⟩
  rw [hk, List.range'_succ, List.foldl_cons]
  have hrow : s.glow.sum <
      ((List.range' (s.dotI0 x r) (s.dotI1 x r - s.dotI0 x r)).foldl
        (fun g (i : ℕ) => bump g (s.dotJ0 y r * s.width + i)
          (gauss_approx (r⁻¹ * ((i : ℝ) - x)) *
            (gauss_approx (r⁻¹ * ((s.dotJ0 y r : ℝ) - y)) * amp)))
        s.glow).sum := by
    apply sum_foldl_bump_lt
    · intro i _
      exact mul_nonneg (gauss_approx_pos _).le
        (mul_nonneg (gauss_approx_pos _).le hamp.le)
    · refine ⟨s.dotI0 x r, ?_, ?_, ?_⟩
      · exact List.mem_range'_1.mpr ⟨le_rfl, by omega⟩
      · rw [hwf]
        refine splat_idx_lt _ _ _ _ ?_ ?_
        · exact lt_of_lt_of_le hi (min_le_right _ _)
        · exact lt_of_lt_of_le hj (min_le_right _ _)
      · exact mul_pos (gauss_approx_pos _) (mul_pos (gauss_approx_pos _) hamp)
  refine lt_of_lt_of_le hrow ?_
  exact foldl_inv (fun g : List ℝ =>
      ((List.range' (s.dotI0 x r) (s.dotI1 x r - s.dotI0 x r)).foldl
        (fun g (i : ℕ) => bump g (s.dotJ0 y r * s.width + i)
          (gauss_approx (r⁻¹ * ((i : ℝ) - x)) *
            (gauss_approx (r⁻¹ * ((s.dotJ0 y r : ℝ) - y)) * amp)))
        s.glow).sum ≤ g.sum) _ _ _
    (fun g j hg _ =>
      le_trans hg
        (sum_foldl_bump_le (fun i => j * s.width + i)
          (fun i => gauss_approx (r⁻¹ * ((i : ℝ) - x)) *
            (gauss_approx (r⁻¹ * ((j : ℝ) - y)) * amp))
          (List.range' (s.dotI0 x r) (s.dotI1 x r - s.dotI0 x r)) g
          (fun i _ =>
            mul_nonneg (gauss_approx_pos _).le
              (mul_nonneg (gauss_approx_pos _).le hamp.le))))
    le_rfl

/-! ## Non-negativity of the glow buffer (claim C4) -/

theorem nonneg_foldl_bump {α : Type _} (idx : α → ℕ) (val : α → ℝ)
    (l : List α) (g : List ℝ) (hg : ∀ c ∈ g, 0 ≤ c) (hval : ∀ a ∈ l, 0 ≤ val a) :
    ∀ c ∈ l.foldl (fun g a => bump g (idx a) (val a)) g, 0 ≤ c :=
  foldl_inv (fun g : List ℝ => ∀ c ∈ g, 0 ≤ c) _ l g
    (fun _g1 a hg1 ha => mem_bump_nonneg _ _ _ hg1 (hval a ha))
    hg

/-- `add_dot` keeps every glow cell nonnegative (for `amp ≥ 0`). -/
theorem add_dot_nonneg (s : Scope) (x y r amp : ℝ) (hg : ∀ c ∈ s.glow, 0 ≤ c)
    (hamp : 0 ≤ amp) : ∀ c ∈ (s.add_dot x y r amp).glow, 0 ≤ c := by
  rw [add_dot]
  exact foldl_inv (fun g : List ℝ => ∀ c ∈ g, 0 ≤ c) _ _ s.glow
    (fun g j hg' _ =>
      nonneg_foldl_bump (fun i => j * s.width + i)
        (fun i => gauss_approx (r⁻¹ * ((i : ℝ) - x)) *
          (gauss_approx (r⁻¹ * ((j : ℝ) - y)) * amp))
        _ g hg'
        (fun i _ =>
          mul_nonneg (gauss_approx_pos _).le
            (mul_nonneg (gauss_approx_pos _).le hamp)))
    hg

/-- The per-pixel contribution of `add_line` is nonnegative whenever its
along-beam step and scaled amplitude are. -/
theorem lineZ_nonneg (ux uy u0 vx vy v0 ustep amp2 : ℝ) (hamp2 : 0 ≤ amp2)
    (hustep : 0 ≤ ustep) (i j : ℕ) : 0 ≤ lineZ ux uy u0 vx vy v0 ustep amp2 i j := by
  rw [lineZ]
  refine mul_nonneg (mul_nonneg hamp2 (gauss_approx_pos _).le) ?_
  rw [sub_nonneg]
  exact erf_approx_mono (by linarith)

/-- `add_line` keeps every glow cell nonnegative (for `r > 0`, `amp ≥ 0`). -/
theorem add_line_nonneg (s : Scope) (x0 y0 x1 y1 r amp : ℝ)
    (hg : ∀ c ∈ s.glow, 0 ≤ c) (hr : 0 < r) (hamp : 0 ≤ amp) :
    ∀ c ∈ (s.add_line x0 y0 x1 y1 r amp).glow, 0 ≤ c := by
  simp only [add_line]
  split
  · exact add_dot_nonneg _ _ _ _ _ hg hamp
  · rename_i hlen
    push_neg at hlen
    have hsql : (0 : ℝ) <
        Real.sqrt ((x1 - x0) * (x1 - x0) + (y1 - y0) * (y1 - y0)) :=
      Real.sqrt_pos.mpr (by linarith)
    have hA : (0 : ℝ) ≤ 1 / (r *
        Real.sqrt ((x1 - x0) * (x1 - x0) + (y1 - y0) * (y1 - y0))) :=
      div_nonneg zero_le_one (mul_nonneg hr.le hsql.le)
    have hB : (0 : ℝ) ≤ 2 / Real.sqrt Real.pi :=
      div_nonneg (by norm_num) (Real.sqrt_nonneg _)
    have hamp2 : (0 : ℝ) ≤ r / (2 / Real.sqrt Real.pi) * amp /
        Real.sqrt ((x1 - x0) * (x1 - x0) + (y1 - y0) * (y1 - y0)) := by
      have hpi : (0 : ℝ) < 2 / Real.sqrt Real.pi :=
        div_pos (by norm_num) (Real.sqrt_pos.mpr Real.pi_pos)
      exact div_nonneg (mul_nonneg (div_nonneg hr.le hpi.le) hamp) hsql.le
    have hustep : (0 : ℝ) ≤ (x1 - x0) *
        ((x1 - x0) * (1 / (r * Real.sqrt ((x1 - x0) * (x1 - x0) + (y1 - y0) * (y1 - y0)))) *
          (2 / Real.sqrt Real.pi)) +
        (y1 - y0) * (-(-(y1 - y0) *
          (1 / (r * Real.sqrt ((x1 - x0) * (x1 - x0) + (y1 - y0) * (y1 - y0))))) *
          (2 / Real.sqrt Real.pi)) := by
      have hrw : (x1 - x0) *
          ((x1 - x0) * (1 / (r * Real.sqrt ((x1 - x0) * (x1 - x0) + (y1 - y0) * (y1 - y0)))) *
            (2 / Real.sqrt Real.pi)) +
          (y1 - y0) * (-(-(y1 - y0) *
            (1 / (r * Real.sqrt ((x1 - x0) * (x1 - x0) + (y1 - y0) * (y1 - y0))))) *
            (2 / Real.sqrt Real.pi)) =
          ((x1 - x0) * (x1 - x0) + (y1 - y0) * (y1 - y0)) *
            ((1 / (r * Real.sqrt ((x1 - x0) * (x1 - x0) + (y1 - y0) * (y1 - y0)))) *
              (2 / Real.sqrt Real.pi)) := by ring
      rw [hrw]
      exact mul_nonneg (by linarith) (mul_nonneg hA hB)
    exact foldl_inv (fun g : List ℝ => ∀ c ∈ g, 0 ≤ c) _ _ s.glow
      (fun g j hg' _ =>
        nonneg_foldl_bump (fun i => j * s.width + i) _ _ g hg'
          (fun i _ => lineZ_nonneg _ _ _ _ _ _ _ _ hamp2 hustep i j))
      hg

/-- `fade` keeps every glow cell nonnegative (for factor `≥ 0`). -/
theorem fade_nonneg (s : Scope) (f : ℝ) (hg : ∀ c ∈ s.glow, 0 ≤ c) (hf : 0 ≤ f) :
    ∀ c ∈ (s.fade f).glow, 0 ≤ c := by
  rw [fade_glow]
  intro c hc
  obtain ⟨a, ha, rfl⟩ := List.mem_map.mp hc
  exact mul_nonneg (hg a ha) hf

/-- `plotStep` keeps every glow cell nonnegative. -/
theorem plotStep_nonneg (y0 yscale : ℝ) (st : Scope) (sample : ℝ)
    (hg : ∀ c ∈ st.glow, 0 ≤ c) :
    ∀ c ∈ (plotStep y0 yscale st sample).glow, 0 ≤ c := by
  rw [plotStep_eq]
  rcases hxy : st.xylast with _ | p <;> simp only [hxy] <;> split
  · exact hg
  · exact hg
  · exact add_line_nonneg st _ _ _ _ _ _ hg one_pos (by norm_num)
  · exact add_line_nonneg st _ _ _ _ _ _ hg one_pos (by norm_num)

/-- `provide_samples` keeps every glow cell nonnegative. -/
theorem provide_samples_nonneg (s : Scope) (samples : List ℝ)
    (hg : ∀ c ∈ s.glow, 0 ≤ c) :
    ∀ c ∈ (s.provide_samples samples).glow, 0 ≤ c := by
  rw [provide_samples]
  exact foldl_inv (fun st : Scope => ∀ c ∈ st.glow, 0 ≤ c) _ samples _
    (fun st a hst _ => plotStep_nonneg _ _ st a hst)
    (fade_nonneg s _ hg (Real.exp_pos _).le)

/-! ## Fade algebra (claim C8) -/

theorem map_mul_zero (l : List ℝ) : l.map (· * 0) = List.replicate l.length 0 := by
  induction l with
  | nil => simp
  | cons a t ih => simp [ih, List.replicate_succ]

theorem fade_one (s : Scope) : s.fade 1 = s := by
  cases s
  simp [fade]

theorem fade_zero_glow (s : Scope) : (s.fade 0).glow = List.replicate s.glow.length 0 := by
  rw [fade_glow, map_mul_zero]

theorem fade_fade (s : Scope) (a b : ℝ) : (s.fade a).fade b = s.fade (a * b) := by
  cases s
  simp only [fade, List.map_map]
  have h : ((fun x : ℝ => x * b) ∘ fun x : ℝ => x * a) = fun x : ℝ => x * (a * b) := by
    funext x
    simp [Function.comp, mul_assoc]
  rw [h]

/-! ## The sample loop (claims C5, C6, C7) -/

/-- Modelled from the wording of claim C5 (and spec §4.3): per sample, plot
at `x = horiz·width`, `y = height/2 − (height/2·gain)·sample`, draw a
connecting line of radius 1 and amplitude 2 exactly when a last point
exists, then advance and wrap the sweep. -/
def plotStepSpec (st : Scope) (sample : ℝ) : Scope :=
  let x := st.horiz * (st.width : ℝ)
  let y := (st.height : ℝ) / 2 - ((st.height : ℝ) / 2 * st.gain) * sample
  let st1 :=
    match st.xylast with
    | some p => st.add_line p.1 p.2 x y 1 2
    | none => st
  let st2 := { st1 with xylast := some (x, y), horiz := st1.horiz + st1.sweep }
  if st2.horiz > 1 then { st2 with horiz := st2.horiz - 1, xylast := none } else st2

/-- Modelled from the wording of claim C5: fade by `exp (-n / tc)` exactly
once, before any sample of the batch, then process the samples strictly in
input order. -/
def provide_samplesSpec (s : Scope) (samples : List ℝ) : Scope :=
  samples.foldl plotStepSpec (s.fade (Real.exp (-(samples.length : ℝ) / s.tc)))

theorem plotStep_eq_spec (st : Scope) (a : ℝ) :
    plotStep ((st.height : ℝ) * 0.5) ((st.height : ℝ) * 0.5 * st.gain) st a =
      plotStepSpec st a := by
  have hy : (st.height : ℝ) * 0.5 - (st.height : ℝ) * 0.5 * st.gain * a =
      (st.height : ℝ) / 2 - (st.height : ℝ) / 2 * st.gain * a := by ring
  simp only [plotStep, plotStepSpec, hy]

theorem foldl_plotStep_spec :
    ∀ (l : List ℝ) (st : Scope) (H : ℕ) (G : ℝ), st.height = H → st.gain = G →
      l.foldl (plotStep ((H : ℝ) * 0.5) ((H : ℝ) * 0.5 * G)) st =
        l.foldl plotStepSpec st := by
  intro l
  induction l with
  | nil => intro st H G _ _; rfl
  | cons a t ih =>
    intro st H G hH hG
    subst hH
    subst hG
    rw [List.foldl_cons, List.foldl_cons, plotStep_eq_spec]
    exact ih (plotStepSpec st a) st.height st.gain
      (by rw [← plotStep_eq_spec, plotStep_height])
      (by rw [← plotStep_eq_spec, plotStep_gain])

/-- After one `plotStep` whose advance wraps past 1, the last point is
cleared. -/
theorem plotStep_xylast_of_wrap (y0 yscale : ℝ) (st : Scope) (sample : ℝ)
    (h : st.horiz + st.sweep > 1) :
    (plotStep y0 yscale st sample).xylast = none := by
  rw [plotStep_eq]
  rcases hxy : st.xylast with _ | p <;> simp [hxy, h]

/-- A `plotStep` from a state with no last point draws nothing, and (when no
wrap occurs) records its own position as the last point. -/
theorem plotStep_of_none (y0 yscale : ℝ) (st : Scope) (sample : ℝ)
    (hxy : st.xylast = none) :
    (plotStep y0 yscale st sample).glow = st.glow ∧
      (¬ st.horiz + st.sweep > 1 →
        (plotStep y0 yscale st sample).xylast =
          some (st.horiz * (st.width : ℝ), y0 - yscale * sample)) := by
  rw [plotStep_eq]
  simp only [hxy]
  constructor
  · split <;> rfl
  · intro hno
    rw [if_neg hno]

/-- One `plotStep` keeps `horiz` inside `[0, 1]` (given a sweep increment in
`[0, 1]`). -/
theorem plotStep_horiz_unit (y0 yscale : ℝ) (st : Scope) (sample : ℝ)
    (h0 : 0 ≤ st.horiz) (h1 : st.horiz ≤ 1) (hs0 : 0 ≤ st.sweep)
    (hs1 : st.sweep ≤ 1) :
    0 ≤ (plotStep y0 yscale st sample).horiz ∧
      (plotStep y0 yscale st sample).horiz ≤ 1 := by
  rw [plotStep_horiz]
  split <;> constructor <;> linarith

theorem add_line_step_horiz (s : Scope) (x0 y0 x1 y1 r amp : ℝ) :
    (s.add_line_step x0 y0 x1 y1 r amp).horiz = s.horiz := by
  rw [add_line_step]
  exact foldl_inv (fun st : Scope => st.horiz = s.horiz) _ _ s
    (fun st i hst _ => by
      show (st.add_dot _ _ _ _).horiz = s.horiz
      rw [add_dot_horiz]; exact hst)
    rfl

theorem add_line_step_sweep (s : Scope) (x0 y0 x1 y1 r amp : ℝ) :
    (s.add_line_step x0 y0 x1 y1 r amp).sweep = s.sweep := by
  rw [add_line_step]
  exact foldl_inv (fun st : Scope => st.sweep = s.sweep) _ _ s
    (fun st i hst _ => by
      show (st.add_dot _ _ _ _).sweep = s.sweep
      rw [add_dot_sweep]; exact hst)
    rfl

/-- Sweep evolution with no wrap: as long as the accumulated position stays
at most 1, each step adds exactly `sweep`. -/
theorem foldl_plotStep_horiz_no_wrap (y0 yscale c : ℝ) :
    ∀ (l : List ℝ) (st : Scope), st.sweep = c → 0 ≤ c →
      st.horiz + (l.length : ℝ) * c ≤ 1 →
      (l.foldl (plotStep y0 yscale) st).horiz = st.horiz + (l.length : ℝ) * c := by
  intro l
  induction l with
  | nil => intro st _ _ _; simp
  | cons a t ih =>
    intro st hsw hc hb
    have hlen : ((a :: t).length : ℝ) = (t.length : ℝ) + 1 := by
      push_cast [List.length_cons]; ring
    rw [hlen] at hb
    have htl : (0 : ℝ) ≤ (t.length : ℝ) := Nat.cast_nonneg _
    have htc : 0 ≤ (t.length : ℝ) * c := mul_nonneg htl hc
    have hb' : st.horiz + c + (t.length : ℝ) * c ≤ 1 := by nlinarith
    have hnw : ¬ st.horiz + st.sweep > 1 := by
      rw [hsw]
      nlinarith
    have hstep : (plotStep y0 yscale st a).horiz = st.horiz + c := by
      rw [plotStep_horiz, if_neg hnw, hsw]
    rw [List.foldl_cons]
    rw [ih (plotStep y0 yscale st a) (by rw [plotStep_sweep]; exact hsw) hc
      (by rw [hstep]; exact hb')]
    rw [hstep, hlen]
    ring

/-! ## The tone-mapping loop (claims C1, C10) -/

theorem getD_replicate_of_lt {α : Type _} (n i : ℕ) (a d : α) (h : i < n) :
    (List.replicate n a).getD i d = a := by
  simp [List.getD_eq_getElem?_getD, List.getElem?_replicate, h]

/-- The tone-mapping loop always succeeds on a well-formed scope and
produces, pixel by pixel, the three tone-curve bytes and alpha 255. -/
theorem tonemap_char (s : Scope) (hwf : s.Wf) :
    ∃ im, s.tonemapChecked = some im ∧ im.length = s.width * s.height * 4 ∧
      ∀ p, p < s.width * s.height →
        im.getD (p * 4) 0 = redByte (s.glow.getD p 0) ∧
        im.getD (p * 4 + 1) 0 = greenByte (s.glow.getD p 0) ∧
        im.getD (p * 4 + 2) 0 = blueByte (s.glow.getD p 0) ∧
        im.getD (p * 4 + 3) 0 = 255 := by
  have haux : ∀ k, k ≤ s.width * s.height →
      ∃ im, (List.range k).foldlM
          (fun im (i : ℕ) => do
            let g ← s.glowChecked i
            let im ← setChecked im (i * 4) (redByte g)
            let im ← setChecked im (i * 4 + 1) (greenByte g)
            setChecked im (i * 4 + 2) (blueByte g))
          (List.replicate (s.width * s.height * 4) 255) = some im ∧
        im.length = s.width * s.height * 4 ∧
        (∀ p, p < k →
          im.getD (p * 4) 0 = redByte (s.glow.getD p 0) ∧
          im.getD (p * 4 + 1) 0 = greenByte (s.glow.getD p 0) ∧
          im.getD (p * 4 + 2) 0 = blueByte (s.glow.getD p 0) ∧
          im.getD (p * 4 + 3) 0 = 255) ∧
        (∀ j, j < s.width * s.height * 4 → k * 4 ≤ j → im.getD j 0 = 255) := by
    intro k
    induction k with
    | zero =>
      intro _
      refine ⟨List.replicate (s.width * s.height * 4) 255, rfl,
        List.length_replicate .., fun p hp => absurd hp (Nat.not_lt_zero p),
        fun j hj _ => getD_replicate_of_lt _ _ _ _ hj⟩
    | succ k ih =>
      intro hk1
      have hkN : k < s.width * s.height := hk1
      obtain ⟨imk, hfold, hlen, hdone, hrest⟩ := ih (le_of_lt hkN)
      have hglow : s.glowChecked k = some (s.glow.getD k 0) := by
        rw [glowChecked, if_pos]
        rw [hwf]
        exact hkN
      have h0 : k * 4 < imk.length := by rw [hlen]; omega
      have h1 : k * 4 + 1 < (imk.set (k * 4) (redByte (s.glow.getD k 0))).length := by
        rw [List.length_set, hlen]; omega
      have h2 : k * 4 + 2 < ((imk.set (k * 4) (redByte (s.glow.getD k 0))).set (k * 4 + 1)
          (greenByte (s.glow.getD k 0))).length := by
        rw [List.length_set, List.length_set, hlen]; omega
      refine ⟨((imk.set (k * 4) (redByte (s.glow.getD k 0))).set (k * 4 + 1)
          (greenByte (s.glow.getD k 0))).set (k * 4 + 2) (blueByte (s.glow.getD k 0)),
        ?_, ?_, ?_, ?_⟩
      · rw [List.range_succ, List.foldlM_append, hfold]
        show (do
          let im ← (do
            let g ← s.glowChecked k
            let im ← setChecked imk (k * 4) (redByte g)
            let im ← setChecked im (k * 4 + 1) (greenByte g)
            setChecked im (k * 4 + 2) (blueByte g))
          pure im : Option (List ℕ)) = _
        rw [hglow]
        have h0' : k * 4 < imk.length := h0
        have h1' : k * 4 + 1 < imk.length := by rw [hlen]; omega
        have h2' : k * 4 + 2 < imk.length := by rw [hlen]; omega
        simp [setChecked, List.length_set, h0', h1', h2']
      · simp only [List.length_set]
        exact hlen
      · intro p hp
        rcases Nat.lt_succ_iff_lt_or_eq.mp hp with hp | hp
        · obtain ⟨ha, hb, hc, hd⟩ := hdone p hp
          refine ⟨?_, ?_, ?_, ?_⟩
          · rw [getD_set_ne _ _ _ (show k * 4 + 2 ≠ p * 4 by omega),
              getD_set_ne _ _ _ (show k * 4 + 1 ≠ p * 4 by omega),
              getD_set_ne _ _ _ (show k * 4 ≠ p * 4 by omega)]
            exact ha
          · rw [getD_set_ne _ _ _ (show k * 4 + 2 ≠ p * 4 + 1 by omega),
              getD_set_ne _ _ _ (show k * 4 + 1 ≠ p * 4 + 1 by omega),
              getD_set_ne _ _ _ (show k * 4 ≠ p * 4 + 1 by omega)]
            exact hb
          · rw [getD_set_ne _ _ _ (show k * 4 + 2 ≠ p * 4 + 2 by omega),
              getD_set_ne _ _ _ (show k * 4 + 1 ≠ p * 4 + 2 by omega),
              getD_set_ne _ _ _ (show k * 4 ≠ p * 4 + 2 by omega)]
            exact hc
          · rw [getD_set_ne _ _ _ (show k * 4 + 2 ≠ p * 4 + 3 by omega),
              getD_set_ne _ _ _ (show k * 4 + 1 ≠ p * 4 + 3 by omega),
              getD_set_ne _ _ _ (show k * 4 ≠ p * 4 + 3 by omega)]
            exact hd
        · subst hp
          refine ⟨?_, ?_, ?_, ?_⟩
          · rw [getD_set_ne _ _ _ (show p * 4 + 2 ≠ p * 4 by omega),
              getD_set_ne _ _ _ (show p * 4 + 1 ≠ p * 4 by omega),
              getD_set_self _ _ _ _ h0]
          · rw [getD_set_ne _ _ _ (show p * 4 + 2 ≠ p * 4 + 1 by omega),
              getD_set_self _ _ _ _ h1]
          · rw [getD_set_self _ _ _ _ h2]
          · rw [getD_set_ne _ _ _ (show p * 4 + 2 ≠ p * 4 + 3 by omega),
              getD_set_ne _ _ _ (show p * 4 + 1 ≠ p * 4 + 3 by omega),
              getD_set_ne _ _ _ (show p * 4 ≠ p * 4 + 3 by omega)]
            exact hrest _ (by omega) (by omega)
      · intro j hj hge
        rw [getD_set_ne _ _ _ (show k * 4 + 2 ≠ j by omega),
          getD_set_ne _ _ _ (show k * 4 + 1 ≠ j by omega),
          getD_set_ne _ _ _ (show k * 4 ≠ j by omega)]
        exact hrest j hj (by omega)
  obtain ⟨im, hfold, hlen, hdone, _⟩ := haux (s.width * s.height) le_rfl
  exact ⟨im, hfold, hlen, hdone⟩

/-! ## The grid overlay (claims C1, C10) -/

theorem shift3_inv (im im' : List ℕ) (i : ℕ) (h : shift3Checked im i = some im') :
    im'.length = im.length ∧
      ∀ k, k ≠ i * 4 → k ≠ i * 4 + 1 → k ≠ i * 4 + 2 → im'.getD k 0 = im.getD k 0 := by
  rw [shift3Checked] at h
  split at h
  · rw [Option.some_inj] at h
    subst h
    refine ⟨by simp [List.length_set], fun k h0 h1 h2 => ?_⟩
    rw [getD_set_ne _ _ _ (Ne.symm h2), getD_set_ne _ _ _ (Ne.symm h1),
      getD_set_ne _ _ _ (Ne.symm h0)]
  · exact absurd h (by simp)

theorem shift3_some (im : List ℕ) (i : ℕ) (h : i * 4 + 2 < im.length) :
    ∃ im', shift3Checked im i = some im' ∧ im'.length = im.length := by
  rw [shift3Checked, if_pos h]
  exact ⟨_, rfl, by simp [List.length_set]⟩

/-- If every step of an `Option` fold succeeds only by modifying indices
inside the touch set `T`, the fold's result agrees with its input outside
`T` (and keeps the length). -/
theorem foldlM_untouched {α : Type _} (T : ℕ → Prop) :
    ∀ (l : List α) (f : List ℕ → α → Option (List ℕ)),
      (∀ im im' a, a ∈ l → f im a = some im' →
        im'.length = im.length ∧ ∀ k, ¬ T k → im'.getD k 0 = im.getD k 0) →
      ∀ im im', l.foldlM f im = some im' →
        im'.length = im.length ∧ ∀ k, ¬ T k → im'.getD k 0 = im.getD k 0 := by
  intro l
  induction l with
  | nil =>
    intro f _ im im' h
    rw [List.foldlM_nil] at h
    have heq : im = im' := by simpa using h
    subst heq
    exact ⟨rfl, fun _ _ => rfl⟩
  | cons a t ih =>
    intro f hstep im im' h
    rw [List.foldlM_cons] at h
    rcases Option.bind_eq_some.mp h with ⟨im1, h1, h2⟩
    obtain ⟨hl1, hu1⟩ := hstep im im1 a (List.mem_cons_self a t) h1
    obtain ⟨hl2, hu2⟩ := ih f
      (fun im im' x hx hfx => hstep im im' x (List.mem_cons_of_mem a hx) hfx) im1 im' h2
    exact ⟨hl2.trans hl1, fun k hk => (hu2 k hk).trans (hu1 k hk)⟩

/-- `render_hline` succeeds when the line is inside the buffer. -/
theorem hline_ok (s : Scope) (x0 x1 y : ℕ) (im : List ℕ)
    (hlen : im.length = s.width * s.height * 4) (hy : y < s.height)
    (hx1 : x1 ≤ s.width) :
    ∃ im', s.render_hlineChecked x0 x1 y im = some im' ∧
      im'.length = s.width * s.height * 4 := by
  rw [render_hlineChecked]
  refine foldlM_some (fun im : List ℕ => im.length = s.width * s.height * 4) _ _ im
    (fun im1 i hi1 hi => ?_) hlen
  have hmem := List.mem_range'_1.mp hi
  have hiw : i < s.width * s.height := by
    have hle : y * s.width + x1 ≤ (y + 1) * s.width := by
      have : x1 ≤ s.width := hx1
      nlinarith [Nat.le_refl (y * s.width)]
    have hyh : (y + 1) * s.width ≤ s.height * s.width :=
      Nat.mul_le_mul_right s.width hy
    have : i < y * s.width + x1 := by omega
    calc i < y * s.width + x1 := this
      _ ≤ (y + 1) * s.width := hle
      _ ≤ s.height * s.width := hyh
      _ = s.width * s.height := Nat.mul_comm ..
  obtain ⟨im', he, hl⟩ := shift3_some im1 i
    (by rw [show im1.length = s.width * s.height * 4 from hi1]; omega)
  refine ⟨im', he, ?_⟩
  show im'.length = s.width * s.height * 4
  rw [hl]
  exact hi1

/-- `render_vline` succeeds when the line is inside the buffer. -/
theorem vline_ok (s : Scope) (x y0 y1 : ℕ) (im : List ℕ)
    (hlen : im.length = s.width * s.height * 4) (hx : x < s.width)
    (hy1 : y1 ≤ s.height) :
    ∃ im', s.render_vlineChecked x y0 y1 im = some im' ∧
      im'.length = s.width * s.height * 4 := by
  rw [render_vlineChecked]
  refine foldlM_some (fun im : List ℕ => im.length = s.width * s.height * 4) _ _ im
    (fun im1 j hj1 hj => ?_) hlen
  have hmem := List.mem_range'_1.mp hj
  have hjh : j < s.height := by omega
  have hpix : j * s.width + x < s.width * s.height := splat_idx_lt _ _ _ _ hx hjh
  obtain ⟨im', he, hl⟩ := shift3_some im1 (j * s.width + x)
    (by rw [show im1.length = s.width * s.height * 4 from hj1]; omega)
  refine ⟨im', he, ?_⟩
  show im'.length = s.width * s.height * 4
  rw [hl]
  exact hj1

/-- Whatever `render_hline` writes lies on its horizontal line. -/
theorem hline_inv (s : Scope) (x0 x1 y : ℕ) (im im' : List ℕ)
    (h : s.render_hlineChecked x0 x1 y im = some im') :
    im'.length = im.length ∧
      ∀ k, (∀ p, onHline s.width x0 x1 y p →
          k ≠ p * 4 ∧ k ≠ p * 4 + 1 ∧ k ≠ p * 4 + 2) →
        im'.getD k 0 = im.getD k 0 := by
  rw [render_hlineChecked] at h
  exact foldlM_untouched
    (fun k => ∃ p, onHline s.width x0 x1 y p ∧
      (k = p * 4 ∨ k = p * 4 + 1 ∨ k = p * 4 + 2)) _ _
    (fun im1 im2 i hi hstep => by
      have hmem := List.mem_range'_1.mp hi
      obtain ⟨hl, hu⟩ := shift3_inv im1 im2 i hstep
      refine ⟨hl, fun k hk => ?_⟩
      have hp : onHline s.width x0 x1 y i := by
        rw [onHline]
        omega
      exact hu k (fun he => hk ⟨i, hp, Or.inl he⟩)
        (fun he => hk ⟨i, hp, Or.inr (Or.inl he)⟩)
        (fun he => hk ⟨i, hp, Or.inr (Or.inr he)⟩))
    im im' h
    |>.imp id (fun hu => fun k hk => hu k (fun ⟨p, hp, hor⟩ => by
      obtain ⟨h0, h1, h2⟩ := hk p hp
      rcases hor with h | h | h <;> exact absurd h (by assumption)))

/-- Whatever `render_vline` writes lies on its vertical line. -/
theorem vline_inv (s : Scope) (x y0 y1 : ℕ) (im im' : List ℕ)
    (h : s.render_vlineChecked x y0 y1 im = some im') :
    im'.length = im.length ∧
      ∀ k, (∀ p, onVline s.width x y0 y1 p →
          k ≠ p * 4 ∧ k ≠ p * 4 + 1 ∧ k ≠ p * 4 + 2) →
        im'.getD k 0 = im.getD k 0 := by
  rw [render_vlineChecked] at h
  exact foldlM_untouched
    (fun k => ∃ p, onVline s.width x y0 y1 p ∧
      (k = p * 4 ∨ k = p * 4 + 1 ∨ k = p * 4 + 2)) _ _
    (fun im1 im2 j hj hstep => by
      have hmem := List.mem_range'_1.mp hj
      obtain ⟨hl, hu⟩ := shift3_inv im1 im2 (j * s.width + x) hstep
      refine ⟨hl, fun k hk => ?_⟩
      have hp : onVline s.width x y0 y1 (j * s.width + x) := by
        rw [onVline]
        exact ⟨j, by omega, by omega, rfl⟩
      exact hu k (fun he => hk ⟨_, hp, Or.inl he⟩)
        (fun he => hk ⟨_, hp, Or.inr (Or.inl he)⟩)
        (fun he => hk ⟨_, hp, Or.inr (Or.inr he)⟩))
    im im' h
    |>.imp id (fun hu => fun k hk => hu k (fun ⟨p, hp, hor⟩ => by
      obtain ⟨h0, h1, h2⟩ := hk p hp
      rcases hor with h | h | h <;> exact absurd h (by assumption)))

/-- The coarse horizontal grid-line loop always succeeds. -/
theorem grid_loop1_ok (s : Scope) (im : List ℕ)
    (hlen : im.length = s.width * s.height * 4) :
    ∃ im', (List.range' 1 ((s.height / 2 + gridSp - 1) / gridSp - 1)).foldlM
        (fun im (i : ℕ) => do
          let im ← s.render_hlineChecked 0 s.width (s.height / 2 + i * gridSp) im
          let yl ← checkSub (s.height / 2) (i * gridSp)
          s.render_hlineChecked 0 s.width yl im)
        im = some im' ∧ im'.length = s.width * s.height * 4 := by
  refine foldlM_some (fun im : List ℕ => im.length = s.width * s.height * 4) _ _ im
    (fun im1 i hi1 hi => ?_) hlen
  have hmem := List.mem_range'_1.mp hi
  simp only [gridSp] at hmem ⊢
  have hrow1 : s.height / 2 + i * 60 < s.height := by omega
  obtain ⟨imA, eA, lA⟩ := hline_ok s 0 s.width _ im1 hi1 hrow1 le_rfl
  have hsub : checkSub (s.height / 2) (i * 60) = some (s.height / 2 - i * 60) := by
    rw [checkSub, if_pos (by omega)]
  have hrow2 : s.height / 2 - i * 60 < s.height := by omega
  obtain ⟨imB, eB, lB⟩ := hline_ok s 0 s.width _ imA lA hrow2 le_rfl
  refine ⟨imB, ?_, lB⟩
  rw [eA]
  simp only [Option.bind_eq_bind, Option.some_bind]
  rw [hsub]
  simp only [Option.bind_eq_bind, Option.some_bind]
  exact eB

/-- The coarse vertical grid-line loop always succeeds. -/
theorem grid_loop2_ok (s : Scope) (im : List ℕ)
    (hlen : im.length = s.width * s.height * 4) :
    ∃ im', (List.range' 1 ((s.width / 2 + gridSp - 1) / gridSp - 1)).foldlM
        (fun im (i : ℕ) => do
          let im ← s.render_vlineChecked (s.width / 2 + i * gridSp) 0 s.height im
          let xl ← checkSub (s.width / 2) (i * gridSp)
          s.render_vlineChecked xl 0 s.height im)
        im = some im' ∧ im'.length = s.width * s.height * 4 := by
  refine foldlM_some (fun im : List ℕ => im.length = s.width * s.height * 4) _ _ im
    (fun im1 i hi1 hi => ?_) hlen
  have hmem := List.mem_range'_1.mp hi
  simp only [gridSp] at hmem ⊢
  have hcol1 : s.width / 2 + i * 60 < s.width := by omega
  obtain ⟨imA, eA, lA⟩ := vline_ok s _ 0 s.height im1 hi1 hcol1 le_rfl
  have hsub : checkSub (s.width / 2) (i * 60) = some (s.width / 2 - i * 60) := by
    rw [checkSub, if_pos (by omega)]
  have hcol2 : s.width / 2 - i * 60 < s.width := by omega
  obtain ⟨imB, eB, lB⟩ := vline_ok s _ 0 s.height imA lA hcol2 le_rfl
  refine ⟨imB, ?_, lB⟩
  rw [eA]
  simp only [Option.bind_eq_bind, Option.some_bind]
  rw [hsub]
  simp only [Option.bind_eq_bind, Option.some_bind]
  exact eB

/-- The horizontal tick-mark loop succeeds when ticks exist only with a wide
enough buffer (`height ≥ 26` forces `width ≥ 12`). -/
theorem grid_loop3_ok (s : Scope) (h26h : 26 ≤ s.height → 12 ≤ s.width)
    (im : List ℕ) (hlen : im.length = s.width * s.height * 4) :
    ∃ im', (List.range' 1 ((s.height / 2 + tickSp - 1) / tickSp - 1)).foldlM
        (fun im (i : ℕ) => do
          let xl ← checkSub (s.width / 2) tickLen
          let yl ← checkSub (s.height / 2) (i * tickSp)
          let im ← s.render_hlineChecked xl (s.width / 2 + tickLen) yl im
          s.render_hlineChecked xl (s.width / 2 + tickLen) (s.height / 2 + i * tickSp) im)
        im = some im' ∧ im'.length = s.width * s.height * 4 := by
  refine foldlM_some (fun im : List ℕ => im.length = s.width * s.height * 4) _ _ im
    (fun im1 i hi1 hi => ?_) hlen
  have hmem := List.mem_range'_1.mp hi
  simp only [tickSp, tickLen] at hmem ⊢
  have hw12 : 12 ≤ s.width := h26h (by omega)
  have hsubx : checkSub (s.width / 2) 6 = some (s.width / 2 - 6) := by
    rw [checkSub, if_pos (by omega)]
  have hsuby : checkSub (s.height / 2) (i * 12) = some (s.height / 2 - i * 12) := by
    rw [checkSub, if_pos (by omega)]
  have hx1 : s.width / 2 + 6 ≤ s.width := by omega
  have hrow1 : s.height / 2 - i * 12 < s.height := by omega
  have hrow2 : s.height / 2 + i * 12 < s.height := by omega
  obtain ⟨imA, eA, lA⟩ := hline_ok s _ (s.width / 2 + 6) _ im1 hi1 hrow1 hx1
  obtain ⟨imB, eB, lB⟩ := hline_ok s _ (s.width / 2 + 6) _ imA lA hrow2 hx1
  refine ⟨imB, ?_, lB⟩
  rw [hsubx]
  simp only [Option.bind_eq_bind, Option.some_bind]
  rw [hsuby]
  simp only [Option.bind_eq_bind, Option.some_bind]
  rw [eA]
  simp only [Option.bind_eq_bind, Option.some_bind]
  exact eB

/-- The vertical tick-mark loop succeeds when ticks exist only with a tall
enough buffer (`width ≥ 26` forces `height ≥ 12`). -/
theorem grid_loop4_ok (s : Scope) (h26w : 26 ≤ s.width → 12 ≤ s.height)
    (im : List ℕ) (hlen : im.length = s.width * s.height * 4) :
    ∃ im', (List.range' 1 ((s.width / 2 + tickSp - 1) / tickSp - 1)).foldlM
        (fun im (i : ℕ) => do
          let yl ← checkSub (s.height / 2) tickLen
          let im ← s.render_vlineChecked (s.width / 2 + i * tickSp) yl
            (s.height / 2 + tickLen) im
          let xl ← checkSub (s.width / 2) (i * tickSp)
          s.render_vlineChecked xl yl (s.height / 2 + tickLen) im)
        im = some im' ∧ im'.length = s.width * s.height * 4 := by
  refine foldlM_some (fun im : List ℕ => im.length = s.width * s.height * 4) _ _ im
    (fun im1 i hi1 hi => ?_) hlen
  have hmem := List.mem_range'_1.mp hi
  simp only [tickSp, tickLen] at hmem ⊢
  have hh12 : 12 ≤ s.height := h26w (by omega)
  have hsuby : checkSub (s.height / 2) 6 = some (s.height / 2 - 6) := by
    rw [checkSub, if_pos (by omega)]
  have hsubx : checkSub (s.width / 2) (i * 12) = some (s.width / 2 - i * 12) := by
    rw [checkSub, if_pos (by omega)]
  have hy1 : s.height / 2 + 6 ≤ s.height := by omega
  have hcol1 : s.width / 2 + i * 12 < s.width := by omega
  have hcol2 : s.width / 2 - i * 12 < s.width := by omega
  obtain ⟨imA, eA, lA⟩ := vline_ok s _ _ (s.height / 2 + 6) im1 hi1 hcol1 hy1
  obtain ⟨imB, eB, lB⟩ := vline_ok s _ _ (s.height / 2 + 6) imA lA hcol2 hy1
  refine ⟨imB, ?_, lB⟩
  rw [hsuby]
  simp only [Option.bind_eq_bind, Option.some_bind]
  rw [eA]
  simp only [Option.bind_eq_bind, Option.some_bind]
  rw [hsubx]
  simp only [Option.bind_eq_bind, Option.some_bind]
  exact eB

/-- The grid overlay succeeds whenever the buffer is not too skinny for its
tick marks. -/
theorem grid_ok (s : Scope) (hw : 0 < s.width) (hh : 0 < s.height)
    (h26h : 26 ≤ s.height → 12 ≤ s.width) (h26w : 26 ≤ s.width → 12 ≤ s.height)
    (im : List ℕ) (hlen : im.length = s.width * s.height * 4) :
    ∃ im', s.render_grid_linesChecked im = some im' ∧
      im'.length = s.width * s.height * 4 := by
  simp only [render_grid_linesChecked]
  obtain ⟨im1, e1, l1⟩ := hline_ok s 0 s.width (s.height / 2) im hlen (by omega) le_rfl
  obtain ⟨im2, e2, l2⟩ := vline_ok s (s.width / 2) 0 s.height im1 l1 (by omega) le_rfl
  obtain ⟨im3, e3, l3⟩ := grid_loop1_ok s im2 l2
  obtain ⟨im4, e4, l4⟩ := grid_loop2_ok s im3 l3
  obtain ⟨im5, e5, l5⟩ := grid_loop3_ok s h26h im4 l4
  obtain ⟨im6, e6, l6⟩ := grid_loop4_ok s h26w im5 l5
  simp only [Option.bind_eq_bind] at e3 e4 e5 e6
  refine ⟨im6, ?_, l6⟩
  rw [e1]
  simp only [Option.bind_eq_bind, Option.some_bind]
  rw [e2]
  simp only [Option.bind_eq_bind, Option.some_bind]
  rw [e3]
  simp only [Option.bind_eq_bind, Option.some_bind]
  rw [e4]
  simp only [Option.bind_eq_bind, Option.some_bind]
  rw [e5]
  simp only [Option.bind_eq_bind, Option.some_bind]
  exact e6

theorem checkSub_eq_some {a b c : ℕ} (h : checkSub a b = some c) :
    b ≤ a ∧ c = a - b := by
  rw [checkSub] at h
  split at h
  · exact ⟨by assumption, (Option.some_inj.mp h).symm⟩
  · exact absurd h (by simp)

theorem untouched_of_uncovered {w h k : ℕ}
    (hk : ¬ ∃ p, gridCovered w h p ∧ (k = p * 4 ∨ k = p * 4 + 1 ∨ k = p * 4 + 2)) :
    ∀ p, gridCovered w h p → k ≠ p * 4 ∧ k ≠ p * 4 + 1 ∧ k ≠ p * 4 + 2 :=
  fun p hcov =>
    ⟨fun he => hk ⟨p, hcov, Or.inl he⟩,
     fun he => hk ⟨p, hcov, Or.inr (Or.inl he)⟩,
     fun he => hk ⟨p, hcov, Or.inr (Or.inr he)⟩⟩

/-- The grid overlay only writes to covered pixels: outside `gridCovered`
(and on every alpha byte) the image is unchanged, and its length is kept. -/
theorem grid_inv (s : Scope) (im im' : List ℕ)
    (h : s.render_grid_linesChecked im = some im') :
    im'.length = im.length ∧
      ∀ k, (∀ p, gridCovered s.width s.height p →
          k ≠ p * 4 ∧ k ≠ p * 4 + 1 ∧ k ≠ p * 4 + 2) →
        im'.getD k 0 = im.getD k 0 := by
  simp only [render_grid_linesChecked, Option.bind_eq_bind] at h
  rcases Option.bind_eq_some.mp h with ⟨im1, e1, h⟩
  rcases Option.bind_eq_some.mp h with ⟨im2, e2, h⟩
  rcases Option.bind_eq_some.mp h with ⟨im3, e3, h⟩
  rcases Option.bind_eq_some.mp h with ⟨im4, e4, h⟩
  rcases Option.bind_eq_some.mp h with ⟨im5, e5, e6⟩
  obtain ⟨l1, u1⟩ := hline_inv s 0 s.width (s.height / 2) im im1 e1
  obtain ⟨l2, u2⟩ := vline_inv s (s.width / 2) 0 s.height im1 im2 e2
  have H3 := foldlM_untouched
    (fun k => ∃ p, gridCovered s.width s.height p ∧
      (k = p * 4 ∨ k = p * 4 + 1 ∨ k = p * 4 + 2)) _ _
    (fun imA imB i hi hstep => by
      have hmem := List.mem_range'_1.mp hi
      rcases Option.bind_eq_some.mp hstep with ⟨imM, eM, hstep⟩
      rcases Option.bind_eq_some.mp hstep with ⟨yl, eSub, eH2⟩
      obtain ⟨hba, hyl⟩ := checkSub_eq_some eSub
      subst hyl
      obtain ⟨lM, uM⟩ := hline_inv s 0 s.width _ imA imM eM
      obtain ⟨lB, uB⟩ := hline_inv s 0 s.width _ imM imB eH2
      refine ⟨lB.trans lM, fun k hk => ?_⟩
      have hiK : 1 ≤ i ∧ i < (s.height / 2 + gridSp - 1) / gridSp := by
        simp only [gridSp] at hmem ⊢
        omega
      rw [uB, uM]
      · intro p hp
        exact untouched_of_uncovered hk p
          (Or.inr (Or.inr (Or.inl ⟨i, hiK.1, hiK.2, Or.inl hp⟩)))
      · intro p hp
        exact untouched_of_uncovered hk p
          (Or.inr (Or.inr (Or.inl ⟨i, hiK.1, hiK.2, Or.inr hp⟩))))
    im2 im3 e3
  have H4 := foldlM_untouched
    (fun k => ∃ p, gridCovered s.width s.height p ∧
      (k = p * 4 ∨ k = p * 4 + 1 ∨ k = p * 4 + 2)) _ _
    (fun imA imB i hi hstep => by
      have hmem := List.mem_range'_1.mp hi
      rcases Option.bind_eq_some.mp hstep with ⟨imM, eM, hstep⟩
      rcases Option.bind_eq_some.mp hstep with ⟨xl, eSub, eV2⟩
      obtain ⟨hba, hxl⟩ := checkSub_eq_some eSub
      subst hxl
      obtain ⟨lM, uM⟩ := vline_inv s _ 0 s.height imA imM eM
      obtain ⟨lB, uB⟩ := vline_inv s _ 0 s.height imM imB eV2
      refine ⟨lB.trans lM, fun k hk => ?_⟩
      have hiK : 1 ≤ i ∧ i < (s.width / 2 + gridSp - 1) / gridSp := by
        simp only [gridSp] at hmem ⊢
        omega
      rw [uB, uM]
      · intro p hp
        exact untouched_of_uncovered hk p
          (Or.inr (Or.inr (Or.inr (Or.inl ⟨i, hiK.1, hiK.2, Or.inl hp⟩))))
      · intro p hp
        exact untouched_of_uncovered hk p
          (Or.inr (Or.inr (Or.inr (Or.inl ⟨i, hiK.1, hiK.2, Or.inr hp⟩)))))
    im3 im4 e4
  have H5 := foldlM_untouched
    (fun k => ∃ p, gridCovered s.width s.height p ∧
      (k = p * 4 ∨ k = p * 4 + 1 ∨ k = p * 4 + 2)) _ _
    (fun imA imB i hi hstep => by
      have hmem := List.mem_range'_1.mp hi
      rcases Option.bind_eq_some.mp hstep with ⟨xl, eSubX, hstep⟩
      rcases Option.bind_eq_some.mp hstep with ⟨yl, eSubY, hstep⟩
      rcases Option.bind_eq_some.mp hstep with ⟨imM, eM, eH2⟩
      obtain ⟨hbx, hxl⟩ := checkSub_eq_some eSubX
      subst hxl
      obtain ⟨hby, hyl⟩ := checkSub_eq_some eSubY
      subst hyl
      obtain ⟨lM, uM⟩ := hline_inv s _ _ _ imA imM eM
      obtain ⟨lB, uB⟩ := hline_inv s _ _ _ imM imB eH2
      refine ⟨lB.trans lM, fun k hk => ?_⟩
      have hiK : 1 ≤ i ∧ i < (s.height / 2 + tickSp - 1) / tickSp := by
        simp only [tickSp] at hmem ⊢
        omega
      rw [uB, uM]
      · intro p hp
        exact untouched_of_uncovered hk p
          (Or.inr (Or.inr (Or.inr (Or.inr (Or.inl
            ⟨i, hiK.1, hiK.2, Or.inl hp⟩)))))
      · intro p hp
        exact untouched_of_uncovered hk p
          (Or.inr (Or.inr (Or.inr (Or.inr (Or.inl
            ⟨i, hiK.1, hiK.2, Or.inr hp⟩))))))
    im4 im5 e5
  have H6 := foldlM_untouched
    (fun k => ∃ p, gridCovered s.width s.height p ∧
      (k = p * 4 ∨ k = p * 4 + 1 ∨ k = p * 4 + 2)) _ _
    (fun imA imB i hi hstep => by
      have hmem := List.mem_range'_1.mp hi
      rcases Option.bind_eq_some.mp hstep with ⟨yl, eSubY, hstep⟩
      rcases Option.bind_eq_some.mp hstep with ⟨imM, eM, hstep⟩
      rcases Option.bind_eq_some.mp hstep with ⟨xl, eSubX, eV2⟩
      obtain ⟨hby, hyl⟩ := checkSub_eq_some eSubY
      subst hyl
      obtain ⟨hbx, hxl⟩ := checkSub_eq_some eSubX
      subst hxl
      obtain ⟨lM, uM⟩ := vline_inv s _ _ _ imA imM eM
      obtain ⟨lB, uB⟩ := vline_inv s _ _ _ imM imB eV2
      refine ⟨lB.trans lM, fun k hk => ?_⟩
      have hiK : 1 ≤ i ∧ i < (s.width / 2 + tickSp - 1) / tickSp := by
        simp only [tickSp] at hmem ⊢
        omega
      rw [uB, uM]
      · intro p hp
        exact untouched_of_uncovered hk p
          (Or.inr (Or.inr (Or.inr (Or.inr (Or.inr
            ⟨i, hiK.1, hiK.2, Or.inl hp⟩)))))
      · intro p hp
        exact untouched_of_uncovered hk p
          (Or.inr (Or.inr (Or.inr (Or.inr (Or.inr
            ⟨i, hiK.1, hiK.2, Or.inr hp⟩))))))
    im5 im' e6
  obtain ⟨l3, u3⟩ := H3
  obtain ⟨l4, u4⟩ := H4
  obtain ⟨l5, u5⟩ := H5
  obtain ⟨l6, u6⟩ := H6
  refine ⟨by omega, fun k hk => ?_⟩
  have hT : ¬ ∃ p, gridCovered s.width s.height p ∧
      (k = p * 4 ∨ k = p * 4 + 1 ∨ k = p * 4 + 2) := by
    rintro ⟨p, hcov, hor⟩
    obtain ⟨h0, h1, h2⟩ := hk p hcov
    rcases hor with h | h | h <;> exact absurd h (by assumption)
  rw [u6 k hT, u5 k hT, u4 k hT, u3 k hT]
  rw [u2 k (fun p hp => hk p (Or.inr (Or.inl hp))),
    u1 k (fun p hp => hk p (Or.inl hp))]

/-- `as_rgba` succeeds (performing only in-bounds accesses) whenever the
buffer is not too skinny for its tick marks. -/
theorem as_rgba_ok (s : Scope) (hwf : s.Wf) (hw : 0 < s.width) (hh : 0 < s.height)
    (h26h : 26 ≤ s.height → 12 ≤ s.width) (h26w : 26 ≤ s.width → 12 ≤ s.height) :
    ∃ im, s.as_rgbaChecked = some im ∧ im.length = s.width * s.height * 4 := by
  rw [as_rgbaChecked]
  obtain ⟨im0, e0, l0, _⟩ := tonemap_char s hwf
  obtain ⟨im', e', l'⟩ := grid_ok s hw hh h26h h26w im0 l0
  refine ⟨im', ?_, l'⟩
  rw [e0]
  simp only [Option.bind_eq_bind, Option.some_bind]
  exact e'

/-- A dot whose clip box lies entirely outside the buffer is a no-op. -/
theorem add_dot_outside (s : Scope) (x y r amp : ℝ) (hr : 0 < r)
    (h : x + clipFactor * r < 0 ∨ (s.width : ℝ) ≤ x - clipFactor * r ∨
      y + clipFactor * r < 0 ∨ (s.height : ℝ) ≤ y - clipFactor * r) :
    s.add_dot x y r amp = s := by
  have hcf : (0 : ℝ) < clipFactor * r := by
    rw [clipFactor]; nlinarith
  have hiempty : (x + clipFactor * r < 0 ∨ (s.width : ℝ) ≤ x - clipFactor * r) →
      s.dotI1 x r - s.dotI0 x r = 0 := by
    rintro (hx | hx)
    · have h1 : ⌈x + clipFactor * r⌉ ≤ 0 := Int.ceil_le.mpr (by norm_num; linarith)
      have : s.dotI1 x r = 0 := by
        rw [dotI1]
        omega
      omega
    · have h1 : (s.width : ℤ) ≤ ⌈x - clipFactor * r⌉ := by
        have := Int.le_ceil (x - clipFactor * r)
        exact_mod_cast le_trans hx this
      have : s.dotI0 x r = s.width := by
        rw [dotI0]
        omega
      have h2 : s.dotI1 x r ≤ s.width := min_le_right _ _
      omega
  have hjempty : (y + clipFactor * r < 0 ∨ (s.height : ℝ) ≤ y - clipFactor * r) →
      s.dotJ1 y r - s.dotJ0 y r = 0 := by
    rintro (hy | hy)
    · have h1 : ⌈y + clipFactor * r⌉ ≤ 0 := Int.ceil_le.mpr (by norm_num; linarith)
      have : s.dotJ1 y r = 0 := by
        rw [dotJ1]
        omega
      omega
    · have h1 : (s.height : ℤ) ≤ ⌈y - clipFactor * r⌉ := by
        have := Int.le_ceil (y - clipFactor * r)
        exact_mod_cast le_trans hy this
      have : s.dotJ0 y r = s.height := by
        rw [dotJ0]
        omega
      have h2 : s.dotJ1 y r ≤ s.height := min_le_right _ _
      omega
  rw [add_dot]
  have hglow :
      (List.range' (s.dotJ0 y r) (s.dotJ1 y r - s.dotJ0 y r)).foldl (fun g (j : ℕ) =>
        (List.range' (s.dotI0 x r) (s.dotI1 x r - s.dotI0 x r)).foldl (fun g (i : ℕ) =>
          bump g (j * s.width + i)
            (gauss_approx (r⁻¹ * ((i : ℝ) - x)) * (gauss_approx (r⁻¹ * ((j : ℝ) - y)) * amp)))
          g)
        s.glow = s.glow := by
    rcases h with hx | hx | hy | hy
    · rw [hiempty (Or.inl hx)]
      exact foldl_inv (fun g : List ℝ => g = s.glow) _ _ s.glow
        (fun g j hg _ => by rw [List.range', List.foldl_nil]; exact hg) rfl
    · rw [hiempty (Or.inr hx)]
      exact foldl_inv (fun g : List ℝ => g = s.glow) _ _ s.glow
        (fun g j hg _ => by rw [List.range', List.foldl_nil]; exact hg) rfl
    · rw [hjempty (Or.inl hy), List.range', List.foldl_nil]
    · rw [hjempty (Or.inr hy), List.range', List.foldl_nil]
  rw [hglow]

end Scope

/-! ## Invariants of reachable states -/

/-- Every glow cell of every `Reach`-reachable state is nonnegative. -/
theorem reach_nonneg : ∀ s, Reach s → ∀ c ∈ s.glow, 0 ≤ c := by
  intro s h
  induction h with
  | new w h =>
    intro c hc
    have : c = 0 := List.eq_of_mem_replicate hc
    rw [this]
  | fade f _ hf ih => exact Scope.fade_nonneg _ _ ih hf
  | add_dot x y r amp _ hr hamp ih => exact Scope.add_dot_nonneg _ _ _ _ _ ih hamp
  | add_line x0 y0 x1 y1 r amp _ hr hamp ih =>
    exact Scope.add_line_nonneg _ _ _ _ _ _ _ ih hr hamp
  | provide_samples samples _ ih => exact Scope.provide_samples_nonneg _ _ ih

/-- `horiz` stays in `[0, 1]` (and `sweep` in `[0, 1]`) on every
`ReachAny`-reachable state. -/
theorem reachAny_horiz_unit :
    ∀ s, ReachAny s → (0 ≤ s.horiz ∧ s.horiz ≤ 1) ∧ (0 ≤ s.sweep ∧ s.sweep ≤ 1) := by
  intro s h
  induction h with
  | new w h =>
    refine ⟨⟨le_rfl, zero_le_one⟩, ?_, ?_⟩ <;> norm_num [Scope.new]
  | fade f _ ih => simpa using ih
  | add_dot x y r amp _ ih => simpa using ih
  | add_line x0 y0 x1 y1 r amp _ ih => simpa using ih
  | add_line_step x0 y0 x1 y1 r amp _ ih =>
    rwa [Scope.add_line_step_horiz, Scope.add_line_step_sweep]
  | provide_samples samples _ ih =>
    simp only [Scope.provide_samples]
    refine foldl_inv
      (fun st : Scope => (0 ≤ st.horiz ∧ st.horiz ≤ 1) ∧ (0 ≤ st.sweep ∧ st.sweep ≤ 1))
      _ samples _ (fun st a hst _ => ?_) (by simpa using ih)
    refine ⟨Scope.plotStep_horiz_unit _ _ st a hst.1.1 hst.1.2 hst.2.1 hst.2.2, ?_⟩
    rw [Scope.plotStep_sweep]
    exact hst.2

namespace Scope

@[simp] theorem new_width (w h : ℕ) : (new w h).width = w := rfl

@[simp] theorem new_height (w h : ℕ) : (new w h).height = h := rfl

@[simp] theorem new_glow (w h : ℕ) : (new w h).glow = List.replicate (w * h) 0 := rfl

@[simp] theorem new_tc (w h : ℕ) : (new w h).tc = 1000 := rfl

@[simp] theorem new_sweep (w h : ℕ) : (new w h).sweep = 0.001 := rfl

@[simp] theorem new_horiz (w h : ℕ) : (new w h).horiz = 0 := rfl

@[simp] theorem new_gain (w h : ℕ) : (new w h).gain = 1 := rfl

@[simp] theorem new_xylast (w h : ℕ) : (new w h).xylast = none := rfl

end Scope

/-! ## The claims -/

/-- C2: for every well-formed `Scope` and radius `r > 0`, every write of
`add_dot` and `add_line` to the glow buffer is in bounds (the checked
versions never fail and agree with the total models), and a dot whose clip
box lies entirely outside the buffer leaves the scope unchanged without
failing. -/
theorem C2_splat_writes_in_bounds (s : Scope) (hwf : s.Wf) (r : ℝ) (hr : 0 < r) :
    (∀ x y amp, s.add_dotChecked x y r amp = some (s.add_dot x y r amp)) ∧
    (∀ x0 y0 x1 y1 amp,
      s.add_lineChecked x0 y0 x1 y1 r amp = some (s.add_line x0 y0 x1 y1 r amp)) ∧
    (∀ x y amp,
      (x + clipFactor * r < 0 ∨ (s.width : ℝ) ≤ x - clipFactor * r ∨
        y + clipFactor * r < 0 ∨ (s.height : ℝ) ≤ y - clipFactor * r) →
      s.add_dot x y r amp = s ∧ s.add_dotChecked x y r amp = some s) := by
  refine ⟨fun x y amp => Scope.add_dotChecked_eq hwf x y r amp,
    fun x0 y0 x1 y1 amp => Scope.add_lineChecked_eq hwf x0 y0 x1 y1 r amp,
    fun x y amp hout => ?_⟩
  have hno : s.add_dot x y r amp = s := Scope.add_dot_outside s x y r amp hr hout
  exact ⟨hno, by rw [Scope.add_dotChecked_eq hwf, hno]⟩

/-- Witness for C2 at a concrete scope: an in-range dot write and a fully
off-screen dot. -/
theorem C2_witness :
    (Scope.new 2 2).add_dotChecked 0 0 1 1 = some ((Scope.new 2 2).add_dot 0 0 1 1) ∧
      (Scope.new 2 2).add_dot (-100) 0 1 1 = Scope.new 2 2 := by
  have h := C2_splat_writes_in_bounds (Scope.new 2 2) (Scope.wf_new 2 2) 1 one_pos
  exact ⟨h.1 0 0 1,
    (h.2.2 (-100) 0 1 (Or.inl (by norm_num [clipFactor]))).1⟩

/-- C3 (amended): for every well-formed scope, `add_dot` with `r > 0` and
`amp > 0` never decreases the total glow energy, and strictly increases it
whenever the clamped clip box contains at least one pixel.  (As originally
stated — a strict increase for *every* center — the claim fails when the
clip box is clipped away entirely; see the counterexample.) -/
theorem C3_add_dot_energy (s : Scope) (x y r amp : ℝ) (hwf : s.Wf) (_hr : 0 < r)
    (hamp : 0 < amp) :
    Scope.glowSum s ≤ Scope.glowSum (s.add_dot x y r amp) ∧
      (s.dotI0 x r < s.dotI1 x r → s.dotJ0 y r < s.dotJ1 y r →
        Scope.glowSum s < Scope.glowSum (s.add_dot x y r amp)) :=
  ⟨Scope.add_dot_sum_le s x y r amp hamp.le,
   fun hi hj => Scope.add_dot_sum_lt s x y r amp hwf hamp hi hj⟩

/-- Counterexample to C3 as stated: a dot centered far off screen adds no
energy at all. -/
theorem C3_counterexample :
    ¬ Scope.glowSum (Scope.new 4 4) <
      Scope.glowSum ((Scope.new 4 4).add_dot (-1000) (-1000) 1 1) := by
  have h : (Scope.new 4 4).add_dot (-1000) (-1000) 1 1 = Scope.new 4 4 :=
    Scope.add_dot_outside _ _ _ _ _ one_pos (Or.inl (by norm_num [clipFactor]))
  rw [h]
  exact lt_irrefl _

/-- Witness for C3 at a concrete scope: an on-screen dot strictly increases
the energy. -/
theorem C3_witness :
    Scope.glowSum (Scope.new 2 2) <
      Scope.glowSum ((Scope.new 2 2).add_dot 1 1 1 1) := by
  have h := C3_add_dot_energy (Scope.new 2 2) 1 1 1 1 (Scope.wf_new 2 2) one_pos one_pos
  refine h.2 ?_ ?_
  · rw [Scope.dotI0, Scope.dotI1]
    rw [show (1 : ℝ) - clipFactor * 1 = -1.5 by norm_num [clipFactor],
      show (1 : ℝ) + clipFactor * 1 = 3.5 by norm_num [clipFactor],
      show (⌈(-1.5 : ℝ)⌉ : ℤ) = -1 by rw [Int.ceil_eq_iff]; norm_num,
      show (⌈(3.5 : ℝ)⌉ : ℤ) = 4 by rw [Int.ceil_eq_iff]; norm_num]
    simp only [Scope.new_width]
    omega
  · rw [Scope.dotJ0, Scope.dotJ1]
    rw [show (1 : ℝ) - clipFactor * 1 = -1.5 by norm_num [clipFactor],
      show (1 : ℝ) + clipFactor * 1 = 3.5 by norm_num [clipFactor],
      show (⌈(-1.5 : ℝ)⌉ : ℤ) = -1 by rw [Int.ceil_eq_iff]; norm_num,
      show (⌈(3.5 : ℝ)⌉ : ℤ) = 4 by rw [Int.ceil_eq_iff]; norm_num]
    simp only [Scope.new_height]
    omega

/-- C4: every glow cell is nonnegative in every state reachable by `new`,
`fade` (factor ≥ 0), `add_dot`/`add_line` (`r > 0`, `amp ≥ 0`) and
`provide_samples`; and the two facts this rests on: `gauss_approx` is
everywhere positive and `erf_approx` is monotone non-decreasing. -/
theorem C4_glow_nonneg :
    (∀ s, Reach s → ∀ c ∈ s.glow, 0 ≤ c) ∧
      (∀ x : ℝ, 0 < gauss_approx x) ∧ Monotone erf_approx :=
  ⟨reach_nonneg, gauss_approx_pos, erf_approx_mono⟩

/-- Witness for C4 at a concrete reachable state. -/
theorem C4_witness :
    (0 : ℝ) ∈ (Scope.new 3 2).glow ∧ (0 : ℝ) ≤ 0 := by
  have hmem : (0 : ℝ) ∈ (Scope.new 3 2).glow := by simp
  exact ⟨hmem, C4_glow_nonneg.1 _ (Reach.new 3 2) 0 hmem⟩

/-- C5: `provide_samples` equals its specification: fade once by
`exp (-n / tc)` before any plotting, then process samples strictly in
order, plotting at `x = horiz·width`, `y = height/2 − (height/2·gain)·s`,
and drawing an `add_line` of radius 1 and amplitude 2 exactly when a last
point exists. -/
theorem C5_provide_samples_spec (s : Scope) (samples : List ℝ) :
    s.provide_samples samples = Scope.provide_samplesSpec s samples := by
  simp only [Scope.provide_samples, Scope.provide_samplesSpec]
  exact Scope.foldl_plotStep_spec samples _ _ _ rfl rfl

/-- C6: a wrapping step clears the last point before the next sample; a
step from a cleared last point draws nothing and (when it does not itself
wrap) records its own position as the new last point. -/
theorem C6_wrap_clears_lastPoint (y0 yscale : ℝ) (st : Scope) (sample : ℝ) :
    (st.horiz + st.sweep > 1 →
      (Scope.plotStep y0 yscale st sample).xylast = none) ∧
    (st.xylast = none →
      (Scope.plotStep y0 yscale st sample).glow = st.glow ∧
      (¬ st.horiz + st.sweep > 1 →
        (Scope.plotStep y0 yscale st sample).xylast =
          some (st.horiz * (st.width : ℝ), y0 - yscale * sample))) :=
  ⟨fun h => Scope.plotStep_xylast_of_wrap y0 yscale st sample h,
   fun h => Scope.plotStep_of_none y0 yscale st sample h⟩

/-- Witness for C6: a concrete wrapping step and a concrete post-wrap step. -/
theorem C6_witness :
    (Scope.plotStep 0 0 ⟨1, 1, [0], 1000, 0.5, 0.6, 1, none⟩ 0).xylast = none ∧
    (Scope.plotStep 0 0 ⟨1, 1, [0], 1000, 0.5, 0.1, 1, none⟩ 0).glow = [0] ∧
    (Scope.plotStep 0 0 ⟨1, 1, [0], 1000, 0.5, 0.1, 1, none⟩ 0).xylast =
      some ((0.1 : ℝ) * ((1 : ℕ) : ℝ), 0 - 0 * 0) := by
  have h1 := (C6_wrap_clears_lastPoint 0 0 ⟨1, 1, [0], 1000, 0.5, 0.6, 1, none⟩ 0).1
    (show (0.6 : ℝ) + 0.5 > 1 by norm_num)
  have h2 := (C6_wrap_clears_lastPoint 0 0 ⟨1, 1, [0], 1000, 0.5, 0.1, 1, none⟩ 0).2 rfl
  exact ⟨h1, h2.1, h2.2 (show ¬ (0.1 : ℝ) + 0.5 > 1 by norm_num)⟩

/-- C7 (amended): on every reachable state the sweep position lies in the
*closed* interval `[0, 1]`, including after every individual sample step.
(The original half-open bound `horiz < 1` fails: in exact arithmetic 1000
samples from a fresh scope land exactly on `horiz = 1`, which the `> 1.0`
wrap test does not wrap; see the counterexample.) -/
theorem C7_horiz_unit_interval :
    (∀ s, ReachAny s → 0 ≤ s.horiz ∧ s.horiz ≤ 1) ∧
    (∀ (y0 yscale : ℝ) (st : Scope) (sample : ℝ),
      0 ≤ st.horiz → st.horiz ≤ 1 → 0 ≤ st.sweep → st.sweep ≤ 1 →
      0 ≤ (Scope.plotStep y0 yscale st sample).horiz ∧
        (Scope.plotStep y0 yscale st sample).horiz ≤ 1) :=
  ⟨fun s h => (reachAny_horiz_unit s h).1,
   fun y0 yscale st sample h0 h1 hs0 hs1 =>
     Scope.plotStep_horiz_unit y0 yscale st sample h0 h1 hs0 hs1⟩

/-- Witness for C7 at a concrete reachable state and a concrete step. -/
theorem C7_witness :
    (0 ≤ (Scope.new 1 1).horiz ∧ (Scope.new 1 1).horiz ≤ 1) ∧
    (0 ≤ (Scope.plotStep 0 0 (Scope.new 1 1) 0).horiz ∧
      (Scope.plotStep 0 0 (Scope.new 1 1) 0).horiz ≤ 1) := by
  refine ⟨C7_horiz_unit_interval.1 _ (ReachAny.new 1 1),
    C7_horiz_unit_interval.2 0 0 (Scope.new 1 1) 0 ?_ ?_ ?_ ?_⟩ <;>
    norm_num

/-- Counterexample to C7 as stated (`horiz ∈ [0, 1)`): after exactly 1000
samples from a fresh 1×1 scope the sweep position is exactly 1. -/
theorem C7_counterexample :
    ReachAny ((Scope.new 1 1).provide_samples (List.replicate 1000 0)) ∧
      ¬ ((Scope.new 1 1).provide_samples (List.replicate 1000 0)).horiz < 1 := by
  refine ⟨ReachAny.provide_samples _ (ReachAny.new 1 1), ?_⟩
  have h : ((Scope.new 1 1).provide_samples (List.replicate 1000 0)).horiz = 1 := by
    simp only [Scope.provide_samples]
    rw [Scope.foldl_plotStep_horiz_no_wrap _ _ 0.001 _ _
      (by rw [Scope.fade_sweep, Scope.new_sweep])
      (by norm_num)
      (by rw [Scope.fade_horiz, Scope.new_horiz, List.length_replicate]; norm_num)]
    rw [Scope.fade_horiz, Scope.new_horiz, List.length_replicate]
    norm_num
  rw [h]
  exact lt_irrefl 1

/-- C8: `fade 1` is the identity, `fade 0` zeroes every cell, and two fades
compose into the fade by the product of the factors. -/
theorem C8_fade_algebra (s : Scope) (a b : ℝ) :
    s.fade 1 = s ∧ (s.fade 0).glow = List.replicate s.glow.length 0 ∧
      (s.fade a).fade b = s.fade (a * b) :=
  ⟨Scope.fade_one s, Scope.fade_zero_glow s, Scope.fade_fade s a b⟩

/-- C9: a sub-pixel segment (squared length < 1) is drawn as a single dot at
the midpoint with the same radius and amplitude. -/
theorem C9_degenerate_line (s : Scope) (x0 y0 x1 y1 r amp : ℝ)
    (hdeg : (x1 - x0) * (x1 - x0) + (y1 - y0) * (y1 - y0) < 1) :
    s.add_line x0 y0 x1 y1 r amp =
      s.add_dot ((x0 + x1) * 0.5) ((y0 + y1) * 0.5) r amp := by
  simp only [Scope.add_line, if_pos hdeg]

/-- Witness for C9: the all-zero degenerate segment equals the dot at the
origin. -/
theorem C9_witness :
    (Scope.new 1 1).add_line 0 0 0 0 1 2 = (Scope.new 1 1).add_dot 0 0 1 2 := by
  rw [C9_degenerate_line (Scope.new 1 1) 0 0 0 0 1 2 (by norm_num)]
  norm_num

/-- C1 (amended): for every well-formed scope with positive width and
height, `as_rgba` — tone-mapping plus the grid-and-tick overlay — performs
only in-bounds accesses and returns normally, *provided* the buffer is not
too skinny for its tick marks: a height of 26 or more (which makes
horizontal ticks exist) requires width ≥ 12, and a width of 26 or more
requires height ≥ 12.  (As originally stated — for all positive sizes — the
claim fails: for e.g. 26×1 the tick-mark column `width/2 − tickLen`
underflows `usize`; see the counterexample.) -/
theorem C1_as_rgba_in_bounds (s : Scope) (hwf : s.Wf) (hw : 0 < s.width)
    (hh : 0 < s.height) (h26h : 26 ≤ s.height → 12 ≤ s.width)
    (h26w : 26 ≤ s.width → 12 ≤ s.height) :
    ∃ im, s.as_rgbaChecked = some im ∧ im.length = s.width * s.height * 4 :=
  Scope.as_rgba_ok s hwf hw hh h26h h26w

/-- Witness for C1 at a concrete scope. -/
theorem C1_witness : (Scope.new 1 1).as_rgbaChecked.isSome = true := by
  obtain ⟨im, he, _⟩ := C1_as_rgba_in_bounds (Scope.new 1 1) (Scope.wf_new 1 1)
    (by norm_num) (by norm_num) (by norm_num) (by norm_num)
  rw [he]
  rfl

/-- Counterexample to C1 as stated: on a 26×1 scope the vertical tick-mark
loop computes `height/2 − tickLen = 0 − 6`, a `usize` underflow, so
`as_rgba` fails rather than returning normally. -/
theorem C1_counterexample : (Scope.new 26 1).as_rgbaChecked = none := by
  simp only [Scope.as_rgbaChecked, Scope.render_grid_linesChecked, Scope.new_width,
    Scope.new_height, Scope.gridSp, Scope.tickSp, Scope.tickLen]
  norm_num
  intro a _ b _ c _ d hd
  rw [Scope.checkSub, if_neg (by norm_num)] at hd
  simp at hd

/-- C10 (amended): whenever `as_rgba` returns a byte sequence (cf. C1: it
fails for certain skinny buffers, so "always returns" is amended to
"whenever it returns"), the sequence has length `width*height*4`, row-major
with interleaved R,G,B,A; every pixel's alpha byte is 255; and at every
pixel not covered by a grid line or tick mark the channels are exactly the
three tone curves applied to that pixel's glow cell (the glow buffer itself
is untouched: the embedding of `as_rgba` is a pure function of the scope). -/
theorem C10_as_rgba_format (s : Scope) (hwf : s.Wf) :
    ∀ im, s.as_rgbaChecked = some im →
      im.length = s.width * s.height * 4 ∧
      (∀ p, p < s.width * s.height → im.getD (p * 4 + 3) 0 = 255) ∧
      (∀ p, p < s.width * s.height → ¬ Scope.gridCovered s.width s.height p →
        im.getD (p * 4) 0 = Scope.redByte (s.glow.getD p 0) ∧
        im.getD (p * 4 + 1) 0 = Scope.greenByte (s.glow.getD p 0) ∧
        im.getD (p * 4 + 2) 0 = Scope.blueByte (s.glow.getD p 0)) := by
  intro im him
  rw [Scope.as_rgbaChecked] at him
  simp only [Option.bind_eq_bind] at him
  rcases Option.bind_eq_some.mp him with ⟨im0, e0, egrid⟩
  obtain ⟨im0', e0', l0, hpix⟩ := Scope.tonemap_char s hwf
  have heq : im0' = im0 := by
    rw [e0'] at e0
    exact Option.some_inj.mp e0
  subst heq
  obtain ⟨lg, ug⟩ := Scope.grid_inv s im0' im egrid
  refine ⟨lg.trans l0, ?_, ?_⟩
  · intro p hp
    have hpres := ug (p * 4 + 3) (fun p' _ => ⟨by omega, by omega, by omega⟩)
    rw [hpres]
    exact (hpix p hp).2.2.2
  · intro p hp hcov
    have hobl : ∀ k1, (k1 = p * 4 ∨ k1 = p * 4 + 1 ∨ k1 = p * 4 + 2) →
        ∀ p', Scope.gridCovered s.width s.height p' →
        k1 ≠ p' * 4 ∧ k1 ≠ p' * 4 + 1 ∧ k1 ≠ p' * 4 + 2 := by
      intro k1 hk1 p' hcov'
      have hne : p ≠ p' := fun he => hcov (he ▸ hcov')
      refine ⟨by omega, by omega, by omega⟩
    refine ⟨?_, ?_, ?_⟩
    · rw [ug (p * 4) (hobl (p * 4) (Or.inl rfl))]
      exact (hpix p hp).1
    · rw [ug (p * 4 + 1) (hobl (p * 4 + 1) (Or.inr (Or.inl rfl)))]
      exact (hpix p hp).2.1
    · rw [ug (p * 4 + 2) (hobl (p * 4 + 2) (Or.inr (Or.inr rfl)))]
      exact (hpix p hp).2.2.1

/-- Counterexample to C10 as stated: on a 4×26 scope `as_rgba` fails (the
horizontal tick-mark loop computes `width/2 − tickLen = 2 − 6`, a `usize`
underflow), so it does not return a byte sequence at all. -/
theorem C10_counterexample : (Scope.new 4 26).as_rgbaChecked = none := by
  simp only [Scope.as_rgbaChecked, Scope.render_grid_linesChecked, Scope.new_width,
    Scope.new_height, Scope.gridSp, Scope.tickSp, Scope.tickLen]
  norm_num
  intro a _ b _ c _ d hd
  rw [Scope.checkSub, if_neg (by norm_num)] at hd
  simp at hd

/-- Witness for C10 at a concrete scope: for the fresh 2×2 scope, `as_rgba`
returns 16 bytes, pixel 0's alpha byte is 255, and pixel 0 (not covered by
the center lines, which pass through row 1 and column 1) carries the red
tone curve of glow 0, which is byte 0. -/
theorem C10_witness :
    (Scope.new 2 2).as_rgbaChecked.map List.length = some 16 ∧
    (Scope.new 2 2).as_rgbaChecked.map (fun im => im.getD 3 0) = some 255 ∧
    (Scope.new 2 2).as_rgbaChecked.map (fun im => im.getD 0 0) = some 0 := by
  have huncov : ¬ Scope.gridCovered 2 2 0 := by
    rintro (⟨h1, h2⟩ | ⟨j, hj1, hj2, hj3⟩ | ⟨i, hi1, hi2, _⟩ | ⟨i, hi1, hi2, _⟩ |
      ⟨i, hi1, hi2, _⟩ | ⟨i, hi1, hi2, _⟩)
    · omega
    · omega
    · simp only [Scope.gridSp] at hi2
      omega
    · simp only [Scope.gridSp] at hi2
      omega
    · simp only [Scope.tickSp] at hi2
      omega
    · simp only [Scope.tickSp] at hi2
      omega
  obtain ⟨im, he, _⟩ := Scope.as_rgba_ok (Scope.new 2 2) (Scope.wf_new 2 2)
    (by norm_num) (by norm_num) (by norm_num) (by norm_num)
  have h := C10_as_rgba_format (Scope.new 2 2) (Scope.wf_new 2 2) im he
  have hglow0 : (Scope.new 2 2).glow.getD 0 0 = 0 := by
    rw [Scope.new_glow]
    exact Scope.getD_replicate_of_lt _ _ _ _ (by norm_num)
  refine ⟨?_, ?_, ?_⟩
  · rw [he, Option.map_some']
    rw [h.1]
    norm_num
  · rw [he, Option.map_some']
    exact congrArg some (h.2.1 0 (by norm_num))
  · rw [he, Option.map_some']
    have hch := (h.2.2 0 (by norm_num) (by simpa using huncov)).1
    rw [hglow0] at hch
    have hred : Scope.redByte 0 = 0 := by
      rw [Scope.redByte, Scope.byteOfReal]
      norm_num [Real.sqrt_zero]
    exact congrArg some (hch.trans hred)
